import Mathlib

/-!
Verification of the brave-sync-notes repository core against its
natural-language specification.

Shallow embedding conventions:
* JavaScript strings are modelled as `String` (for identifiers) or
  `List Char` (for payload contents that are sliced and joined).
* JavaScript objects/maps keyed by strings become functions
  `String → Option _`; `localStorage` keys of the form
  `prefix_type_id1_id2` become structured per-table fields.
* `Date.now()` timestamps are passed in explicitly as `now : Nat`.
* JavaScript `x || d` on numbers/strings (which treats `0`/`""` as
  falsy) is modelled by explicit `if x = 0 / x = ""` tests.
* Callback invocations and socket emissions are modelled as event lists.
-/

namespace BraveSync

/-! ## Chunk codec (client/src/hooks/useSocket.js)

`splitIntoChunks` and `reassembleChunks`.  The repository file contains
two embedded revisions of `useSocket.js`; the first revision's
`reassembleChunks` (lines 66–86, without the duplicate-chunk guard) is
modelled as `reassembleChunksV1`, the second revision's (lines 312–339,
with the guard) as `reassembleChunks`. -/

/-- `CHUNK_SIZE = 50 * 1024` from useSocket.js. -/
def CHUNK_SIZE : Nat := 50 * 1024

/-- One element of the list produced by `splitIntoChunks`:
`{ index, total, data }`. -/
structure Chunk where
  index : Nat
  total : Nat
  data : List Char
  deriving DecidableEq, Repr

/-- `splitIntoChunks(content)`, generalised over the chunk size constant
(the source closes over `CHUNK_SIZE`; the spec's contract
`split(payload, chunkSize)` names the size as a parameter).
`content.slice(i*CS, (i+1)*CS)` is `(content.drop (i*CS)).take CS`. -/
def splitIntoChunksWith (chunkSize : Nat) (content : List Char) : List Chunk :=
  if content.length ≤ chunkSize then
    [⟨0, 1, content⟩]
  else
    let totalChunks := (content.length + chunkSize - 1) / chunkSize
    (List.range totalChunks).map fun i =>
      ⟨i, totalChunks, (content.drop (i * chunkSize)).take chunkSize⟩

/-- The code's `splitIntoChunks` with the hard-wired `CHUNK_SIZE`. -/
def splitIntoChunks (content : List Char) : List Chunk :=
  splitIntoChunksWith CHUNK_SIZE content

/-- One per-session reassembly record:
`{ chunks: new Array(total), received, total }` (the JS array with holes
is modelled as a function to `Option`). -/
structure Session where
  chunks : Nat → Option (List Char)
  received : Nat
  total : Nat

/-- `pendingChunksRef.current`: sessionId-keyed map of sessions. -/
def Store : Type := String → Option Session

/-- The empty chunk store. -/
def emptyStore : Store := fun _ => none

/-- Point update of a sessionId-keyed store. -/
def setStore (st : Store) (k : String) (v : Option Session) : Store :=
  fun x => if x = k then v else st x

/-- Point update of an index-keyed chunk array. -/
def updFn (f : Nat → Option (List Char)) (i : Nat) (v : Option (List Char)) :
    Nat → Option (List Char) :=
  fun j => if j = i then v else f j

/-- `session.chunks.join('')`: array holes join as empty strings. -/
def joinChunks (total : Nat) (f : Nat → Option (List Char)) : List Char :=
  ((List.range total).map fun i => (f i).getD []).flatten

/-- Body of the second revision's `reassembleChunks` after the session
has been looked up / created: duplicate guard, store, count, emit. -/
def reassembleStep (st : Store) (sid : String) (s0 : Session) (c : Chunk) :
    Store × Option (List Char) :=
  if (s0.chunks c.index).isSome then
    (st, none)
  else
    let s1 : Session := ⟨updFn s0.chunks c.index (some c.data), s0.received + 1, s0.total⟩
    if s1.received = s1.total then
      (setStore st sid none, some (joinChunks s1.total s1.chunks))
    else
      (setStore st sid (some s1), none)

/-- A fresh session created from the first chunk of a transfer:
`{ chunks: new Array(chunk.total), received: 0, total: chunk.total }`. -/
def freshSession (total : Nat) : Session :=
  ⟨fun _ => none, 0, total⟩

/-- `reassembleChunks(sessionId, chunk)` — second revision
(useSocket.js lines 312–339), with the duplicate-chunk guard. -/
def reassembleChunks (st : Store) (sid : String) (c : Chunk) :
    Store × Option (List Char) :=
  match st sid with
  | none =>
      reassembleStep (setStore st sid (some (freshSession c.total))) sid
        (freshSession c.total) c
  | some s0 => reassembleStep st sid s0 c

/-- Body of the first revision's `reassembleChunks`: no duplicate guard,
the slot is overwritten and `received` incremented unconditionally. -/
def reassembleStepV1 (st : Store) (sid : String) (s0 : Session) (c : Chunk) :
    Store × Option (List Char) :=
  let s1 : Session := ⟨updFn s0.chunks c.index (some c.data), s0.received + 1, s0.total⟩
  if s1.received = s1.total then
    (setStore st sid none, some (joinChunks s1.total s1.chunks))
  else
    (setStore st sid (some s1), none)

/-- `reassembleChunks(sessionId, chunk)` — first embedded revision
(useSocket.js lines 66–86). -/
def reassembleChunksV1 (st : Store) (sid : String) (c : Chunk) :
    Store × Option (List Char) :=
  match st sid with
  | none =>
      reassembleStepV1 (setStore st sid (some (freshSession c.total))) sid
        (freshSession c.total) c
  | some s0 => reassembleStepV1 st sid s0 c

/-- Feed a list of chunks to `reassembleChunks` in order, collecting the
return value of every call. -/
def runReassemble (st : Store) (sid : String) : List Chunk → Store × List (Option (List Char))
  | [] => (st, [])
  | c :: rest =>
      let r := reassembleChunks st sid c
      let rr := runReassemble r.1 sid rest
      (rr.1, r.2 :: rr.2)

/-- Feed a list of chunks to the first revision's `reassembleChunks`. -/
def runReassembleV1 (st : Store) (sid : String) : List Chunk → Store × List (Option (List Char))
  | [] => (st, [])
  | c :: rest =>
      let r := reassembleChunksV1 st sid c
      let rr := runReassembleV1 r.1 sid rest
      (rr.1, r.2 :: rr.2)

/-- The data the i-th chunk of a split carries:
`content.slice(i*chunkSize, (i+1)*chunkSize)`. -/
def chunkData (cs : Nat) (p : List Char) (i : Nat) : List Char :=
  (p.drop (i * cs)).take cs

/-- The number of chunks `splitIntoChunks` produces. -/
def numChunks (cs : Nat) (p : List Char) : Nat :=
  if p.length ≤ cs then 1 else (p.length + cs - 1) / cs

/-- The chunk array of a session that has received exactly the indices
in `ixs`, each carrying data `f i`. -/
def chunksFn (f : Nat → List Char) (ixs : List Nat) : Nat → Option (List Char) :=
  fun i => if i ∈ ixs then some (f i) else none

/-- The reassembly session after receiving the distinct indices `ixs`. -/
def sessionOf (T : Nat) (f : Nat → List Char) (ixs : List Nat) : Session :=
  ⟨chunksFn f ixs, ixs.length, T⟩

theorem chunksFn_nil (f : Nat → List Char) : chunksFn f [] = fun _ => none := by
  funext i; simp [chunksFn]

theorem freshSession_eq_sessionOf (T : Nat) (f : Nat → List Char) :
    freshSession T = sessionOf T f [] := by
  simp [freshSession, sessionOf, chunksFn_nil]

theorem updFn_chunksFn (f : Nat → List Char) (ixs : List Nat) (i : Nat) :
    updFn (chunksFn f ixs) i (some (f i)) = chunksFn f (i :: ixs) := by
  funext j
  by_cases h : j = i <;> simp [updFn, chunksFn, h]

theorem setStore_get (st : Store) (k : String) (v : Option Session) :
    setStore st k v k = v := by
  simp [setStore]

theorem setStore_setStore (st : Store) (k : String) (v w : Option Session) :
    setStore (setStore st k v) k w = setStore st k w := by
  funext x
  by_cases h : x = k <;> simp [setStore, h]

theorem setStore_self (st : Store) (k : String) : setStore st k (st k) = st := by
  funext x
  by_cases h : x = k <;> simp [setStore, h]

theorem reassemble_some {st : Store} {sid : String} {s0 : Session} (c : Chunk)
    (h : st sid = some s0) :
    reassembleChunks st sid c = reassembleStep st sid s0 c := by
  unfold reassembleChunks
  rw [h]

theorem reassemble_none {st : Store} {sid : String} (c : Chunk) (h : st sid = none) :
    reassembleChunks st sid c =
      reassembleStep (setStore st sid (some (freshSession c.total))) sid
        (freshSession c.total) c := by
  unfold reassembleChunks
  rw [h]

theorem reassembleStep_sessionOf (st : Store) (sid : String) (T : Nat)
    (f : Nat → List Char) (ixs : List Nat) (c : Chunk)
    (hdata : c.data = f c.index) (hnot : c.index ∉ ixs) :
    reassembleStep st sid (sessionOf T f ixs) c =
      if ixs.length + 1 = T then
        (setStore st sid none, some (joinChunks T (chunksFn f (c.index :: ixs))))
      else
        (setStore st sid (some (sessionOf T f (c.index :: ixs))), none) := by
  have hdup : (chunksFn f ixs c.index).isSome = false := by
    simp [chunksFn, hnot]
  unfold reassembleStep
  simp only [sessionOf, hdup, Bool.false_eq_true, if_false, hdata, updFn_chunksFn]
  by_cases ht : ixs.length + 1 = T <;> simp [ht, sessionOf, List.length_cons]

/-- Running the dedup reassembler over chunks with distinct fresh
indices, while the received count stays strictly below `total`: every
call returns `null` and the session accumulates the indices. -/
theorem runReassemble_below (sid : String) (T : Nat) (f : Nat → List Char) :
    ∀ (L : List Chunk) (ixs : List Nat) (st : Store),
      st sid = some (sessionOf T f ixs) →
      (∀ c ∈ L, c.data = f c.index) →
      (L.map Chunk.index).Nodup →
      (∀ c ∈ L, c.index ∉ ixs) →
      ixs.length + L.length < T →
      runReassemble st sid L =
        (setStore st sid (some (sessionOf T f ((L.map Chunk.index).reverse ++ ixs))),
         List.replicate L.length none)
  | [], ixs, st, hst, _, _, _, _ => by
      simp only [runReassemble, List.map_nil, List.reverse_nil, List.nil_append,
        List.length_nil, List.replicate_zero]
      rw [← hst, setStore_self]
  | c :: rest, ixs, st, hst, hdata, hnodup, hdisj, hlt => by
      have hne : ixs.length + 1 ≠ T := by
        simp only [List.length_cons] at hlt
        omega
      have hstep : reassembleChunks st sid c =
          (setStore st sid (some (sessionOf T f (c.index :: ixs))), none) := by
        rw [reassemble_some c hst,
          reassembleStep_sessionOf st sid T f ixs c (hdata c (List.mem_cons_self c rest))
            (hdisj c (List.mem_cons_self c rest)), if_neg hne]
      have hnodup' : (rest.map Chunk.index).Nodup := by
        simp only [List.map_cons, List.nodup_cons] at hnodup
        exact hnodup.2
      have hheadnotin : c.index ∉ rest.map Chunk.index := by
        simp only [List.map_cons, List.nodup_cons] at hnodup
        exact hnodup.1
      have hdisj' : ∀ c' ∈ rest, c'.index ∉ c.index :: ixs := by
        intro c' hc'
        simp only [List.mem_cons]
        push_neg
        refine ⟨?_, hdisj c' (List.mem_cons_of_mem c hc')⟩
        intro hidx
        exact hheadnotin (hidx ▸ List.mem_map_of_mem Chunk.index hc')
      have hrec := runReassemble_below sid T f rest (c.index :: ixs)
        (setStore st sid (some (sessionOf T f (c.index :: ixs))))
        (setStore_get st sid _)
        (fun c' hc' => hdata c' (List.mem_cons_of_mem c hc'))
        hnodup' hdisj'
        (by simp only [List.length_cons] at hlt ⊢; omega)
      have hlist : ((c :: rest).map Chunk.index).reverse ++ ixs
          = (rest.map Chunk.index).reverse ++ (c.index :: ixs) := by
        simp [List.reverse_cons, List.append_assoc]
      simp only [runReassemble, hstep, hrec, setStore_setStore, hlist,
        List.length_cons, List.replicate_succ]

/-- `runReassemble` distributes over list append. -/
theorem runReassemble_append (sid : String) (A B : List Chunk) :
    ∀ st : Store,
      runReassemble st sid (A ++ B) =
        ((runReassemble (runReassemble st sid A).1 sid B).1,
         (runReassemble st sid A).2 ++ (runReassemble (runReassemble st sid A).1 sid B).2) := by
  induction A with
  | nil => intro st; simp [runReassemble]
  | cons c rest ih =>
      intro st
      have h := ih (reassembleChunks st sid c).1
      simp only [List.cons_append, runReassemble, List.append_eq, h]

/-- Concatenating the chunk slices of a payload restores the payload. -/
theorem join_chunkData (cs : Nat) (hcs : 0 < cs) :
    ∀ (T : Nat) (p : List Char), p.length ≤ T * cs →
      ((List.range T).map fun i => chunkData cs p i).flatten = p
  | 0, p, h => by
      have hp : p = [] := List.length_eq_zero.mp (Nat.le_zero.mp (by simpa using h))
      simp [hp]
  | T + 1, p, h => by
      rw [List.range_succ_eq_map]
      simp only [List.map_cons, List.map_map, List.flatten_cons]
      have hcomp : ((fun i => chunkData cs p i) ∘ Nat.succ) =
          fun i => chunkData cs (p.drop cs) i := by
        funext i
        simp only [Function.comp_apply, chunkData, List.drop_drop]
        congr 2
        rw [Nat.succ_mul]
        exact Nat.add_comm _ _
      rw [hcomp, join_chunkData cs hcs T (p.drop cs)
        (by simp only [List.length_drop]; rw [Nat.succ_mul] at h; omega)]
      simp [chunkData]

/-- When the received index set covers `[0, total)`, the join of the
session array is the join of the per-index data. -/
theorem joinChunks_chunksFn_full (T : Nat) (f : Nat → List Char) (ixs : List Nat)
    (hcov : ∀ i, i < T → i ∈ ixs) :
    joinChunks T (chunksFn f ixs) = ((List.range T).map f).flatten := by
  unfold joinChunks
  congr 1
  apply List.map_congr_left
  intro i hi
  rw [List.mem_range] at hi
  simp [chunksFn, hcov i hi]

/-- `splitIntoChunks` in closed form: `numChunks` chunks, the i-th
carrying `chunkData i`. -/
theorem splitIntoChunksWith_eq (cs : Nat) (p : List Char) :
    splitIntoChunksWith cs p =
      (List.range (numChunks cs p)).map
        (fun i => ⟨i, numChunks cs p, chunkData cs p i⟩) := by
  unfold splitIntoChunksWith numChunks
  by_cases h : p.length ≤ cs
  · simp only [h, if_true, List.range_succ, List.range_zero, List.nil_append,
      List.map_cons, List.map_nil]
    simp [chunkData, List.take_of_length_le h]
  · simp [h, chunkData]

theorem numChunks_pos (cs : Nat) (p : List Char) (hcs : 0 < cs) :
    1 ≤ numChunks cs p := by
  unfold numChunks
  by_cases h : p.length ≤ cs
  · simp [h]
  · simp only [h, if_false]
    rw [Nat.le_div_iff_mul_le hcs]
    omega

theorem length_le_numChunks_mul (cs : Nat) (p : List Char) (hcs : 0 < cs) :
    p.length ≤ numChunks cs p * cs := by
  unfold numChunks
  by_cases h : p.length ≤ cs
  · simp only [h, if_true, Nat.one_mul]
  · simp only [h, if_false]
    have h1 := Nat.div_add_mod (p.length + cs - 1) cs
    have h2 := Nat.mod_lt (p.length + cs - 1) hcs
    rw [Nat.mul_comm]
    have h4 : p.length + (p.length + cs - 1) % cs
        ≤ cs * ((p.length + cs - 1) / cs) + (p.length + cs - 1) % cs := by
      rw [h1]
      omega
    exact Nat.le_of_add_le_add_right h4

/-- The very first chunk of a session: the session is created from
`chunk.total` and the chunk is stored; it completes immediately iff the
transfer has exactly one chunk. -/
theorem reassemble_first (sid : String) (T : Nat) (f : Nat → List Char) (st : Store)
    (c : Chunk) (hst : st sid = none) (htot : c.total = T)
    (hdata : c.data = f c.index) :
    reassembleChunks st sid c =
      if 1 = T then
        (setStore st sid none, some (joinChunks T (chunksFn f [c.index])))
      else
        (setStore st sid (some (sessionOf T f [c.index])), none) := by
  rw [reassemble_none c hst, htot, freshSession_eq_sessionOf T f,
    reassembleStep_sessionOf _ sid T f [] c hdata (List.not_mem_nil _)]
  simp only [List.length_nil, Nat.zero_add, setStore_setStore]

/-- C1: feeding all chunks of `splitIntoChunks(payload)` to
`reassembleChunks` under one session id, in any order, returns the
payload on exactly the completing call and `null` on every other call;
feeding any proper sub-multiset of the chunks returns `null` on every
call. -/
theorem chunk_split_reassemble_perm (cs : Nat) (hcs : 0 < cs) (p : List Char)
    (sid : String) :
    (∀ L : List Chunk, L.Perm (splitIntoChunksWith cs p) →
        (runReassemble emptyStore sid L).2
          = List.replicate (L.length - 1) none ++ [some p]) ∧
    (∀ L : List Chunk, L.Subperm (splitIntoChunksWith cs p) →
        L.length < (splitIntoChunksWith cs p).length →
        (runReassemble emptyStore sid L).2 = List.replicate L.length none) := by
  have hsplit := splitIntoChunksWith_eq cs p
  set T := numChunks cs p with hTdef
  set f := chunkData cs p with hfdef
  have hTpos : 1 ≤ T := numChunks_pos cs p hcs
  have hsplit_len : (splitIntoChunksWith cs p).length = T := by
    rw [hsplit, List.length_map, List.length_range]
  have hsplit_idx : (splitIntoChunksWith cs p).map Chunk.index = List.range T := by
    rw [hsplit, List.map_map]
    have hcompid : (Chunk.index ∘ fun i => (⟨i, T, f i⟩ : Chunk)) = id := rfl
    rw [hcompid, List.map_id]
  have hmem : ∀ c : Chunk, c ∈ splitIntoChunksWith cs p →
      c.data = f c.index ∧ c.total = T ∧ c.index < T := by
    intro c hc
    rw [hsplit] at hc
    obtain ⟨i, hi, rfl⟩ := List.mem_map.mp hc
    exact ⟨rfl, rfl, List.mem_range.mp hi⟩
  have hjoin_full : ∀ ixs : List Nat, (∀ i, i < T → i ∈ ixs) →
      joinChunks T (chunksFn f ixs) = p := by
    intro ixs hcov
    rw [joinChunks_chunksFn_full T f ixs hcov]
    exact join_chunkData cs hcs T p (length_le_numChunks_mul cs p hcs)
  constructor
  · -- full permutations
    intro L hperm
    have hmemL : ∀ c ∈ L, c.data = f c.index ∧ c.total = T ∧ c.index < T :=
      fun c hc => hmem c (hperm.subset hc)
    have hlen : L.length = T := by rw [hperm.length_eq, hsplit_len]
    have hidxperm : (L.map Chunk.index).Perm (List.range T) := by
      rw [← hsplit_idx]
      exact hperm.map _
    have hnodupL : (L.map Chunk.index).Nodup :=
      hidxperm.nodup_iff.mpr (List.nodup_range T)
    have hcov : ∀ i, i < T → i ∈ L.map Chunk.index :=
      fun i hi => hidxperm.mem_iff.mpr (List.mem_range.mpr hi)
    cases L with
    | nil =>
        simp only [List.length_nil] at hlen
        omega
    | cons c₀ rest =>
      have h0 := hmemL c₀ (List.mem_cons_self c₀ rest)
      by_cases hT1 : 1 = T
      · -- single-chunk transfer
        have hrest : rest = [] := by
          simp only [List.length_cons] at hlen
          exact List.length_eq_zero.mp (by omega)
        subst hrest
        simp only [runReassemble]
        rw [reassemble_first sid T f emptyStore c₀ rfl h0.2.1 h0.1, if_pos hT1]
        have hjoin : joinChunks T (chunksFn f [c₀.index]) = p := by
          apply hjoin_full
          intro i hi
          have hi0 : i = 0 := by omega
          have hidx0 : c₀.index = 0 := by
            have := h0.2.2
            omega
          simp [hi0, hidx0]
        simp [hjoin]
      · -- at least two chunks
        have hrest_ne : rest ≠ [] := by
          intro h
          subst h
          simp only [List.length_cons, List.length_nil] at hlen
          omega
        obtain ⟨M, z, rfl⟩ : ∃ M z, rest = M ++ [z] := by
          rcases List.eq_nil_or_concat rest with h | ⟨M, z, h⟩
          · exact absurd h hrest_ne
          · exact ⟨M, z, by simpa [List.concat_eq_append] using h⟩
        have hidxlist : (c₀ :: (M ++ [z])).map Chunk.index
            = c₀.index :: ((M.map Chunk.index) ++ [z.index]) := by simp
        rw [hidxlist] at hnodupL
        have hc0nots : c₀.index ∉ (M.map Chunk.index) ++ [z.index] :=
          (List.nodup_cons.mp hnodupL).1
        have htail : ((M.map Chunk.index) ++ [z.index]).Nodup :=
          (List.nodup_cons.mp hnodupL).2
        obtain ⟨hMnodup, -, hdisjMz⟩ := List.nodup_append.mp htail
        have hznotinM : z.index ∉ M.map Chunk.index :=
          fun h => hdisjMz h (by simp)
        have hzc0 : z.index ≠ c₀.index := by
          intro h
          exact hc0nots (by simp [← h])
        have hlen2 : M.length + 2 = T := by
          simp only [List.length_cons, List.length_append, List.length_nil] at hlen
          omega
        have hstep1 : reassembleChunks emptyStore sid c₀
            = (setStore emptyStore sid (some (sessionOf T f [c₀.index])), none) := by
          rw [reassemble_first sid T f emptyStore c₀ rfl h0.2.1 h0.1, if_neg hT1]
        have hmid := runReassemble_below sid T f M [c₀.index]
          (setStore emptyStore sid (some (sessionOf T f [c₀.index])))
          (setStore_get _ _ _)
          (fun c hc => (hmemL c (by simp [hc])).1)
          hMnodup
          (by
            intro c hc hmem'
            simp only [List.mem_singleton] at hmem'
            exact hc0nots (List.mem_append_left _ (hmem' ▸ List.mem_map_of_mem Chunk.index hc)))
          (by
            simp only [List.length_singleton]
            omega)
        have hz := hmemL z (by simp)
        have hznotin : z.index ∉ (M.map Chunk.index).reverse ++ [c₀.index] := by
          simp only [List.mem_append, List.mem_reverse, List.mem_singleton]
          push_neg
          exact ⟨hznotinM, hzc0⟩
        have hlastlen : ((M.map Chunk.index).reverse ++ [c₀.index]).length + 1 = T := by
          simp only [List.length_append, List.length_reverse, List.length_map,
            List.length_singleton]
          omega
        have hcov' : ∀ i, i < T →
            i ∈ z.index :: ((M.map Chunk.index).reverse ++ [c₀.index]) := by
          intro i hi
          have hmemi := hcov i hi
          rw [hidxlist] at hmemi
          simp only [List.mem_cons, List.mem_append, List.mem_singleton] at hmemi
          simp only [List.mem_cons, List.mem_append, List.mem_reverse, List.mem_singleton]
          tauto
        have hjoin := hjoin_full (z.index :: ((M.map Chunk.index).reverse ++ [c₀.index]))
          hcov'
        have hlast : reassembleChunks
            (setStore (setStore emptyStore sid (some (sessionOf T f [c₀.index]))) sid
              (some (sessionOf T f ((M.map Chunk.index).reverse ++ [c₀.index])))) sid z
            = (setStore (setStore emptyStore sid (some (sessionOf T f [c₀.index]))) sid none,
               some p) := by
          rw [reassemble_some z (setStore_get _ _ _),
            reassembleStep_sessionOf _ sid T f _ z hz.1 hznotin, if_pos hlastlen, hjoin,
            setStore_setStore]
        simp only [runReassemble, hstep1, runReassemble_append, hmid, hlast]
        simp only [List.length_cons, List.length_append, List.length_nil,
          List.length_singleton]
        have hn1 : M.length + 1 + 1 - 1 = M.length + 1 := by omega
        rw [hn1]
        simp [List.replicate_succ]
  · -- proper sub-multisets
    intro L hsub hlt
    rw [hsplit_len] at hlt
    have hmemL : ∀ c ∈ L, c.data = f c.index ∧ c.total = T ∧ c.index < T :=
      fun c hc => hmem c (hsub.subset hc)
    have hnodupL : (L.map Chunk.index).Nodup := by
      obtain ⟨l', hperm', hsl⟩ := hsub
      have h1 : (l'.map Chunk.index).Sublist
          ((splitIntoChunksWith cs p).map Chunk.index) := hsl.map _
      have h2 : ((splitIntoChunksWith cs p).map Chunk.index).Nodup := by
        rw [hsplit_idx]
        exact List.nodup_range T
      exact (hperm'.map Chunk.index).nodup_iff.mp (h2.sublist h1)
    cases L with
    | nil => simp [runReassemble]
    | cons c₀ rest =>
      have h0 := hmemL c₀ (List.mem_cons_self c₀ rest)
      have hT1 : ¬(1 = T) := by
        simp only [List.length_cons] at hlt
        omega
      have hstep1 : reassembleChunks emptyStore sid c₀
          = (setStore emptyStore sid (some (sessionOf T f [c₀.index])), none) := by
        rw [reassemble_first sid T f emptyStore c₀ rfl h0.2.1 h0.1, if_neg hT1]
      have hc0nots : c₀.index ∉ rest.map Chunk.index := by
        simp only [List.map_cons, List.nodup_cons] at hnodupL
        exact hnodupL.1
      have hrestnodup : (rest.map Chunk.index).Nodup := by
        simp only [List.map_cons, List.nodup_cons] at hnodupL
        exact hnodupL.2
      have hmid := runReassemble_below sid T f rest [c₀.index]
        (setStore emptyStore sid (some (sessionOf T f [c₀.index])))
        (setStore_get _ _ _)
        (fun c hc => (hmemL c (List.mem_cons_of_mem _ hc)).1)
        hrestnodup
        (by
          intro c hc hmem'
          simp only [List.mem_singleton] at hmem'
          exact hc0nots (hmem' ▸ List.mem_map_of_mem Chunk.index hc))
        (by
          have hl : rest.length + 1 < T := by
            simp only [List.length_cons] at hlt
            omega
          simp only [List.length_cons, List.length_nil]
          omega)
      simp only [runReassemble, hstep1, hmid]
      simp [List.replicate_succ]

/-- Witness for `chunk_split_reassemble_perm`: payload "ab", chunk size
1, chunks fed in reversed order. -/
theorem chunk_split_reassemble_perm_witness :
    0 < 1 ∧
    (runReassemble emptyStore "s" [⟨1, 2, ['b']⟩, ⟨0, 2, ['a']⟩]).2
      = [none, some ['a', 'b']] :=
  ⟨by decide,
   by
     have h := (chunk_split_reassemble_perm 1 (by decide) ['a', 'b'] "s").1
       [⟨1, 2, ['b']⟩, ⟨0, 2, ['a']⟩] (by decide)
     simpa using h⟩

/-- C8 counterexample: the first embedded revision of `reassembleChunks`
(useSocket.js lines 66–86) does not ignore duplicate indices — feeding
the index-0 chunk of a 2-chunk transfer twice makes the second call
return a (truncated) payload instead of `null`. -/
theorem reassembleChunksV1_duplicate_not_ignored :
    (runReassembleV1 emptyStore "s" [⟨0, 2, ['a']⟩, ⟨0, 2, ['a']⟩]).2
        = [none, some ['a']] ∧
    (runReassembleV1 emptyStore "s" [⟨0, 2, ['a']⟩, ⟨0, 2, ['a']⟩]).2
        ≠ [none, none] := by
  constructor
  · rfl
  · decide

/-- C8 (amended): the deduplicating `reassembleChunks` (useSocket.js
lines 312–339) leaves the store — hence the session's chunk slots and
received count — unchanged and returns `null` when the chunk's index was
already received for that session. -/
theorem reassembleChunks_duplicate_noop (st : Store) (sid : String) (c : Chunk)
    (s0 : Session) (h : st sid = some s0) (hdup : (s0.chunks c.index).isSome) :
    reassembleChunks st sid c = (st, none) := by
  rw [reassemble_some c h]
  unfold reassembleStep
  simp [hdup]

/-- Witness for `reassembleChunks_duplicate_noop`. -/
theorem reassembleChunks_duplicate_noop_witness :
    (setStore emptyStore "s" (some (sessionOf 2 (fun _ => ['a']) [0]))) "s"
        = some (sessionOf 2 (fun _ => ['a']) [0]) ∧
    ((sessionOf 2 (fun _ => ['a']) [0]).chunks 0).isSome = true ∧
    reassembleChunks (setStore emptyStore "s" (some (sessionOf 2 (fun _ => ['a']) [0])))
        "s" ⟨0, 2, ['a']⟩
      = (setStore emptyStore "s" (some (sessionOf 2 (fun _ => ['a']) [0])), none) :=
  ⟨setStore_get _ _ _, by decide,
   reassembleChunks_duplicate_noop _ _ _ _ (setStore_get _ _ _) (by decide)⟩

/-! ## Room relay (server/index.js, second embedded revision)

The socket.io server state: the in-process Room Record cache
`chainStore` and the per-socket membership table `socketMeta`.  Socket
emissions (`socket.emit`, `socket.to(room).emit`, `io.to(room).emit`)
and the fire-and-forget persistence write are modelled as events. -/

/-- Generic point update of an optional-valued map. -/
def upd {κ α : Type} [DecidableEq κ] (f : κ → Option α) (k : κ) (v : Option α) :
    κ → Option α :=
  fun x => if x = k then v else f x

theorem upd_get {κ α : Type} [DecidableEq κ] (f : κ → Option α) (k : κ) (v : Option α) :
    upd f k v k = v := by
  simp [upd]

/-- JS `x || d` for strings (absent or empty string falls back). -/
def jsOrStr (x : Option String) (d : String) : String :=
  match x with
  | some s => if s = "" then d else s
  | none => d

/-- Entry of `socketMeta`: `{ roomId, deviceName, joinedAt }`. -/
structure SocketMeta where
  roomId : String
  deviceName : String
  joinedAt : Nat
  deriving DecidableEq, Repr

/-- Room Record as built by the push handler:
`{ encryptedData, timestamp, deviceName, version, hash }`. -/
structure RoomPayload where
  encryptedData : String
  timestamp : Nat
  deviceName : String
  version : Nat
  hash : String
  deriving DecidableEq, Repr

/-- The relay's mutable state. -/
structure ServerState where
  chainStore : String → Option RoomPayload
  socketMeta : String → Option SocketMeta

/-- Fresh server: no rooms, no members. -/
def emptyServer : ServerState := ⟨fun _ => none, fun _ => none⟩

/-- Observable effects of a handler invocation. -/
inductive Emit where
  | errorTo (sock msg : String)
  | syncUpdateTo (sock : String) (p : RoomPayload)
  | broadcastSyncUpdate (room exceptSock : String) (p : RoomPayload)
  | updateAck (sock : String) (timestamp : Nat) (success : Bool)
  | roomInfo (room : String)
  | persistRoom (room : String) (p : RoomPayload)
  deriving DecidableEq, Repr

/-- `DataValidator.isValidRoomId`: regex class `[a-zA-Z0-9_-]`. -/
def isRoomIdChar (c : Char) : Bool :=
  ('a' ≤ c && c ≤ 'z') || ('A' ≤ c && c ≤ 'Z') || ('0' ≤ c && c ≤ '9') ||
    c = '_' || c = '-'

/-- `DataValidator.isValidRoomId(roomId)`: a string of 10–100 characters
drawn from `[a-zA-Z0-9_-]` (PersistenceAdapter module). -/
def isValidRoomId (roomId : String) : Bool :=
  10 ≤ roomId.length && roomId.length ≤ 100 && roomId.toList.all isRoomIdChar

/-- The `join-chain` handler (server/index.js lines 375–427).  The wire
field `roomId` is `Option String` (absent / non-string values behave as
a failed validation, like `!roomId || typeof roomId !== 'string'`);
`persist` is the Persistence Manager's `getRoom`, `none` when
persistence is disabled (a lookup failure also behaves as `none`). -/
def joinChain (st : ServerState) (persist : Option (String → Option RoomPayload))
    (sockId : String) (roomId : Option String) (deviceName : Option String)
    (now : Nat) : ServerState × List Emit :=
  match roomId with
  | none => (st, [.errorTo sockId "Invalid room ID"])
  | some rid =>
    if rid.length < 10 then
      (st, [.errorTo sockId "Invalid room ID"])
    else
      let leaveEmits : List Emit :=
        match st.socketMeta sockId with
        | some old => [.roomInfo old.roomId]
        | none => []
      let st1 : ServerState :=
        { st with
            socketMeta := upd st.socketMeta sockId
              (some ⟨rid, (jsOrStr deviceName "Unknown Device").take 50, now⟩) }
      let existingData : Option RoomPayload :=
        match persist with
        | some getRoom =>
            match getRoom rid with
            | some d => some d
            | none => st1.chainStore rid
        | none => st1.chainStore rid
      let syncEmits : List Emit :=
        match existingData with
        | some d => [.syncUpdateTo sockId d]
        | none => []
      (st1, leaveEmits ++ syncEmits ++ [.roomInfo rid])

/-- The `push-update` handler (server/index.js lines 430–468). -/
def pushUpdate (st : ServerState) (persistEnabled : Bool)
    (sockId roomId encryptedData : String) (timestamp now : Nat) :
    ServerState × List Emit :=
  match st.socketMeta sockId with
  | none => (st, [.errorTo sockId "Not a member of this room"])
  | some meta =>
    if meta.roomId ≠ roomId then
      (st, [.errorTo sockId "Not a member of this room"])
    else
      let payload : RoomPayload := ⟨encryptedData, timestamp, meta.deviceName, now, ""⟩
      let st' : ServerState :=
        { st with chainStore := upd st.chainStore roomId (some payload) }
      let persistEmits : List Emit :=
        if persistEnabled then [.persistRoom roomId payload] else []
      (st', persistEmits ++
        [.broadcastSyncUpdate roomId sockId payload, .updateAck sockId timestamp true])

set_option maxRecDepth 4000 in
/-- C3 counterexample: the 10-character roomId `"!!!!!!!!!!"` violates
the charset part of the room-identifier invariant
(`DataValidator.isValidRoomId` is false on it), yet the `join-chain`
handler accepts it — it records the membership and emits no error —
because the handler only checks `roomId.length < 10`. -/
theorem joinChain_accepts_invalid_roomId :
    isValidRoomId "!!!!!!!!!!" = false ∧
    (joinChain emptyServer none "s1" (some "!!!!!!!!!!") none 0).1.socketMeta "s1"
      = some ⟨"!!!!!!!!!!", "Unknown Device", 0⟩ ∧
    (joinChain emptyServer none "s1" (some "!!!!!!!!!!") none 0).2
      = [Emit.roomInfo "!!!!!!!!!!"] := by
  refine ⟨by decide, by decide, by decide⟩

/-- C3 (amended): the `join-chain` handler rejects a request — emitting
`Invalid room ID` to the requesting socket and recording no membership —
iff the supplied roomId is absent/non-string or shorter than 10
characters; any string of length ≥ 10 is accepted and its membership
recorded, with no error emitted (the full 10–100/charset invariant of
`DataValidator.isValidRoomId` is not enforced on this path). -/
theorem joinChain_validation (st : ServerState)
    (persist : Option (String → Option RoomPayload)) (sockId : String)
    (rid : String) (dn : Option String) (now : Nat) :
    (joinChain st persist sockId none dn now
        = (st, [.errorTo sockId "Invalid room ID"])) ∧
    (rid.length < 10 →
      joinChain st persist sockId (some rid) dn now
        = (st, [.errorTo sockId "Invalid room ID"])) ∧
    (10 ≤ rid.length →
      (joinChain st persist sockId (some rid) dn now).1.socketMeta sockId
          = some ⟨rid, (jsOrStr dn "Unknown Device").take 50, now⟩ ∧
      ∀ m, Emit.errorTo sockId m ∉ (joinChain st persist sockId (some rid) dn now).2) := by
  refine ⟨rfl, ?_, ?_⟩
  · intro hshort
    unfold joinChain
    simp [hshort]
  · intro hlong
    have hns : ¬ rid.length < 10 := by omega
    unfold joinChain
    simp only [hns, if_false]
    refine ⟨upd_get _ _ _, ?_⟩
    intro m hm
    simp only [List.mem_append, List.mem_cons, List.not_mem_nil] at hm
    rcases hm with hm | hm
    · rcases hm with hm | hm
      · revert hm
        cases st.socketMeta sockId <;> simp
      · revert hm
        cases hx : (match persist with
          | some getRoom =>
              match getRoom rid with
              | some d => some d
              | none => st.chainStore rid
          | none => st.chainStore rid : Option RoomPayload) <;> simp
    · rcases hm with hm | hm
      · exact Emit.noConfusion hm
      · exact hm

/-- Witness for `joinChain_validation`. -/
theorem joinChain_validation_witness :
    ("short".length < 10 ∧
      joinChain emptyServer none "s1" (some "short") none 7
        = (emptyServer, [.errorTo "s1" "Invalid room ID"])) ∧
    (10 ≤ "abcdefghij".length ∧
      (joinChain emptyServer none "s1" (some "abcdefghij") none 7).1.socketMeta "s1"
        = some ⟨"abcdefghij", (jsOrStr none "Unknown Device").take 50, 7⟩) :=
  ⟨⟨by decide, (joinChain_validation emptyServer none "s1" "short" none 7).2.1 (by decide)⟩,
   ⟨by decide,
    ((joinChain_validation emptyServer none "s1" "abcdefghij" none 7).2.2 (by decide)).1⟩⟩

/-- C7: a `push-update` whose sender has no recorded membership, or
whose recorded room differs from the claimed `roomId`, only emits the
`Not a member of this room` error to the sender: the state (in
particular the Room Record cache entry for `roomId`) is unchanged, and
no `sync-update` broadcast, `update-ack` or persistence write occurs. -/
theorem pushUpdate_rejects_nonmember (st : ServerState) (persistEnabled : Bool)
    (sockId roomId encryptedData : String) (timestamp now : Nat)
    (h : st.socketMeta sockId = none ∨
      ∃ m, st.socketMeta sockId = some m ∧ m.roomId ≠ roomId) :
    pushUpdate st persistEnabled sockId roomId encryptedData timestamp now
        = (st, [.errorTo sockId "Not a member of this room"]) ∧
    (pushUpdate st persistEnabled sockId roomId encryptedData timestamp now).1.chainStore
        roomId = st.chainStore roomId := by
  have heq : pushUpdate st persistEnabled sockId roomId encryptedData timestamp now
      = (st, [.errorTo sockId "Not a member of this room"]) := by
    unfold pushUpdate
    rcases h with h | ⟨m, hm, hne⟩
    · rw [h]
    · rw [hm]
      simp [hne]
  exact ⟨heq, by rw [heq]⟩

/-- Witness for `pushUpdate_rejects_nonmember`: a socket with no
membership record. -/
theorem pushUpdate_rejects_nonmember_witness :
    emptyServer.socketMeta "s1" = none ∧
    pushUpdate emptyServer true "s1" "abcdefghij" "cipher" 5 6
      = (emptyServer, [.errorTo "s1" "Not a member of this room"]) :=
  ⟨rfl,
   (pushUpdate_rejects_nonmember emptyServer true "s1" "abcdefghij" "cipher" 5 6
     (Or.inl rfl)).1⟩

/-! ## Offline queue (client/src/utils/offline/OfflineQueue.js)

`OfflineQueue` drives a processor over the operations persisted by the
`LocalStorageAdapter` queue methods (`enqueueOperation`,
`dequeueOperations`, `removeOperation`).  The adapter's queue storage —
the `ops_index` key plus the `op_<id>` records — is the `OpsStore`
structure.  Processor results are `ok true / ok false / exn` (an
uncaught exception).  Callback invocations (`onOperationProcessed`,
`onError`, `onQueueEmpty`) and processor offers are recorded as events.
The adapter's `!op.id` validation throw is outside the modelled flows:
every operation handled here carries the id assigned at
`OfflineQueue.enqueue`. -/

/-- Pending operation as persisted:
`{ id, type, noteId, notebookId, data, timestamp, retries }`. -/
structure PendingOp where
  id : String
  opType : String
  noteId : String
  notebookId : String
  data : String
  timestamp : Nat
  retries : Nat
  deriving DecidableEq, Repr

/-- The adapter's queue storage: index list plus id-keyed records. -/
structure OpsStore where
  opsIndex : List String
  opRecords : String → Option PendingOp

/-- Empty queue storage. -/
def emptyOps : OpsStore := ⟨[], fun _ => none⟩

/-- `{...op, timestamp: op.timestamp || Date.now(), retries: op.retries || 0}`
(`retries || 0` is the identity on `Nat`). -/
def fixOp (now : Nat) (op : PendingOp) : PendingOp :=
  { op with timestamp := if op.timestamp = 0 then now else op.timestamp }

/-- `LocalStorageAdapter.enqueueOperation(op)` (lines 566–591): store the
record under `op_<id>`, append the id to `ops_index` if absent. -/
def enqueueOperation (s : OpsStore) (now : Nat) (op : PendingOp) : OpsStore :=
  { opsIndex := if op.id ∈ s.opsIndex then s.opsIndex else s.opsIndex ++ [op.id],
    opRecords := upd s.opRecords op.id (some (fixOp now op)) }

/-- `LocalStorageAdapter.removeOperation(operationId)` (lines 631–644). -/
def removeOperation (s : OpsStore) (opId : String) : OpsStore :=
  { opsIndex := s.opsIndex.filter (fun i => i ≠ opId),
    opRecords := upd s.opRecords opId none }

/-- Comparator of `ops.sort((a, b) => a.timestamp - b.timestamp)`. -/
def tsLe (a b : PendingOp) : Prop := a.timestamp ≤ b.timestamp

instance : DecidableRel tsLe := fun a b => Nat.decLe a.timestamp b.timestamp

/-- `LocalStorageAdapter.dequeueOperations()` (lines 593–611): read the
records of the indexed ids, skipping missing ones, and stable-sort by
timestamp ascending (JS `Array.prototype.sort` is stable; modelled by
insertion sort, which is stable). -/
def dequeueOperations (s : OpsStore) : List PendingOp :=
  List.insertionSort tsLe (s.opsIndex.filterMap s.opRecords)

/-- Result of one `processor(op)` call: a boolean, or a thrown
exception. -/
inductive ProcResult where
  | ok (b : Bool)
  | exn
  deriving DecidableEq, Repr

/-- The `results = { processed, failed }` accumulator. -/
structure QueueResults where
  processed : Nat
  failed : Nat
  deriving DecidableEq, Repr

/-- Observable callback invocations / processor offers during
`processQueue`. -/
inductive QueueEvent where
  | offered (op : PendingOp)
  | opProcessed (op : PendingOp) (success : Bool)
  | onError (op : PendingOp) (maxRetriesExceeded : Bool)
  | queueEmpty
  deriving DecidableEq, Repr

/-- `this.maxRetries = 3` (OfflineQueue constructor). -/
def maxRetries : Nat := 3

/-- One iteration of the `for (const op of operations)` loop
(OfflineQueue.processQueue lines 87–124). -/
def processOne (now : Nat) (proc : PendingOp → ProcResult) (s : OpsStore)
    (op : PendingOp) : OpsStore × QueueResults × List QueueEvent :=
  match proc op with
  | .ok true =>
      (removeOperation s op.id, ⟨1, 0⟩, [.offered op, .opProcessed op true])
  | .ok false =>
      let op' := { op with retries := op.retries + 1 }
      if maxRetries ≤ op'.retries then
        (removeOperation s op.id, ⟨0, 1⟩, [.offered op, .onError op' true])
      else
        (enqueueOperation s now op', ⟨0, 0⟩, [.offered op])
  | .exn =>
      (s, ⟨0, 1⟩, [.offered op, .onError op false])

/-- The whole loop over the snapshot taken by `getAll()`. -/
def runOps (now : Nat) (proc : PendingOp → ProcResult) :
    OpsStore → List PendingOp → OpsStore × QueueResults × List QueueEvent
  | s, [] => (s, ⟨0, 0⟩, [])
  | s, op :: rest =>
      let r := processOne now proc s op
      let rr := runOps now proc r.1 rest
      (rr.1, ⟨r.2.1.processed + rr.2.1.processed, r.2.1.failed + rr.2.1.failed⟩,
        r.2.2 ++ rr.2.2)

/-- The queue instance: storage plus the `isProcessing` flag. -/
structure QueueState where
  ops : OpsStore
  isProcessing : Bool

/-- `OfflineQueue.processQueue(processor)` (lines 65–137).  `getAllOk =
false` models `this.getAll()` throwing (a storage-layer exception); the
`Except` value is the call's outcome (`.error` = the exception
propagates).  The `finally` clause clears `isProcessing` on every exit
path. -/
def processQueue (q : QueueState) (now : Nat) (proc : PendingOp → ProcResult)
    (getAllOk : Bool) : QueueState × Except Unit QueueResults × List QueueEvent :=
  if q.isProcessing then
    (q, .ok ⟨0, 0⟩, [])
  else
    if getAllOk = false then
      ({ q with isProcessing := false }, .error (), [])
    else
      let operations := dequeueOperations q.ops
      if operations.length = 0 then
        ({ q with isProcessing := false }, .ok ⟨0, 0⟩, [.queueEmpty])
      else
        let r := runOps now proc q.ops operations
        let emptyEvts : List QueueEvent :=
          if 0 < r.2.1.processed ∧ (dequeueOperations r.1).length = 0 then
            [.queueEmpty]
          else []
        (⟨r.1, false⟩, .ok r.2.1, r.2.2 ++ emptyEvts)

/-- C10: every terminating `processQueue` call entered with the flag
clear — whether it processes operations, finds the queue empty, or
propagates a storage/processor exception — exits with `isProcessing`
false; and a call that finds the flag set returns `{processed: 0,
failed: 0}` immediately without touching any state. -/
theorem processQueue_clears_isProcessing (q : QueueState) (now : Nat)
    (proc : PendingOp → ProcResult) (getAllOk : Bool) :
    (q.isProcessing = false →
      (processQueue q now proc getAllOk).1.isProcessing = false) ∧
    (q.isProcessing = true →
      processQueue q now proc getAllOk = (q, .ok ⟨0, 0⟩, [])) := by
  constructor
  · intro h
    unfold processQueue
    simp only [h, Bool.false_eq_true, if_false]
    split_ifs <;> rfl
  · intro h
    unfold processQueue
    simp [h]

/-- Witness for `processQueue_clears_isProcessing`. -/
theorem processQueue_clears_isProcessing_witness :
    (⟨emptyOps, false⟩ : QueueState).isProcessing = false ∧
    (processQueue ⟨emptyOps, false⟩ 0 (fun _ => .ok true) true).1.isProcessing = false :=
  ⟨rfl, (processQueue_clears_isProcessing ⟨emptyOps, false⟩ 0 (fun _ => .ok true) true).1 rfl⟩

/-- The loop when the processor throws on every offered operation: the
storage is untouched, every operation is counted `failed`, and the error
callback fires (without touching `retries`). -/
theorem runOps_allExn (now : Nat) (proc : PendingOp → ProcResult) :
    ∀ (L : List PendingOp) (s : OpsStore), (∀ op ∈ L, proc op = .exn) →
      runOps now proc s L
        = (s, ⟨0, L.length⟩, L.flatMap fun op => [.offered op, .onError op false])
  | [], _, _ => rfl
  | op :: rest, s, hexn => by
      have h0 : proc op = .exn := hexn op (List.mem_cons_self _ _)
      have hrec := runOps_allExn now proc rest s
        (fun o ho => hexn o (List.mem_cons_of_mem _ ho))
      simp only [runOps, processOne, h0, hrec, List.flatMap_cons, List.length_cons]
      simp [Nat.add_comm]

/-- An operation used in concrete queue scenarios. -/
def exOp : PendingOp := ⟨"op1", "update", "n1", "nb1", "d", 5, 0⟩

/-- C4 counterexample: with a single queued operation (retries 0) and a
processor that throws, `processQueue` counts the operation failed and
leaves it in the queue with `retries` still 0 — whereas a `false` result
re-persists it with `retries = 1` and counts nothing failed.  The
exception outcome is therefore not identical to the `false` outcome for
retry accounting. -/
theorem processQueue_exception_not_false_result :
    dequeueOperations (processQueue ⟨enqueueOperation emptyOps 5 exOp, false⟩ 9
        (fun _ => .exn) true).1.ops = [exOp] ∧
    (processQueue ⟨enqueueOperation emptyOps 5 exOp, false⟩ 9
        (fun _ => .exn) true).2.1 = .ok ⟨0, 1⟩ ∧
    dequeueOperations (processQueue ⟨enqueueOperation emptyOps 5 exOp, false⟩ 9
        (fun _ => .ok false) true).1.ops = [{ exOp with retries := 1 }] ∧
    (processQueue ⟨enqueueOperation emptyOps 5 exOp, false⟩ 9
        (fun _ => .ok false) true).2.1 = .ok ⟨0, 0⟩ := by
  refine ⟨by decide, by rfl, by decide, by rfl⟩

/-- C4 (amended): an uncaught processor exception is caught by the
per-operation `catch`: the operation is counted `failed` for that run
and the error callback fires, but — unlike a `false` result — its
`retries` count is not incremented, it is not re-persisted, and it is
not removed: the queue storage is left exactly as it was. -/
theorem processQueue_exception_outcome (q : QueueState) (now : Nat)
    (proc : PendingOp → ProcResult)
    (hflag : q.isProcessing = false)
    (hexn : ∀ op ∈ dequeueOperations q.ops, proc op = .exn)
    (hne : dequeueOperations q.ops ≠ []) :
    processQueue q now proc true
      = (⟨q.ops, false⟩, .ok ⟨0, (dequeueOperations q.ops).length⟩,
         (dequeueOperations q.ops).flatMap fun op => [.offered op, .onError op false]) := by
  have hlen : ¬ (dequeueOperations q.ops).length = 0 := by
    intro h
    exact hne (List.length_eq_zero.mp h)
  unfold processQueue
  simp only [hflag, Bool.false_eq_true, if_false, hlen,
    runOps_allExn now proc _ _ hexn]
  simp

/-- Witness for `processQueue_exception_outcome`. -/
theorem processQueue_exception_outcome_witness :
    (⟨enqueueOperation emptyOps 5 exOp, false⟩ : QueueState).isProcessing = false ∧
    dequeueOperations (enqueueOperation emptyOps 5 exOp) ≠ [] ∧
    processQueue ⟨enqueueOperation emptyOps 5 exOp, false⟩ 9 (fun _ => .exn) true
      = (⟨enqueueOperation emptyOps 5 exOp, false⟩,
         .ok ⟨0, (dequeueOperations (enqueueOperation emptyOps 5 exOp)).length⟩,
         (dequeueOperations (enqueueOperation emptyOps 5 exOp)).flatMap
           fun op => [.offered op, .onError op false]) :=
  ⟨rfl, by decide,
   processQueue_exception_outcome ⟨enqueueOperation emptyOps 5 exOp, false⟩ 9
     (fun _ => .exn) rfl (fun _ _ => rfl) (by decide)⟩

/-- A processor that returns `false` on every offer. -/
def procFalse : PendingOp → ProcResult := fun _ => .ok false

/-- A processor that returns `true` on every offer. -/
def procTrue : PendingOp → ProcResult := fun _ => .ok true

/-- `op.retries` incremented, as in `op.retries = (op.retries || 0) + 1`. -/
def incrRetries (op : PendingOp) : PendingOp := { op with retries := op.retries + 1 }

/-- The queue storage after enqueueing the operations `l` in order into
an empty store (distinct ids assumed): the index lists the ids in order
and each record holds its operation. -/
def opsStoreOf (l : List PendingOp) : OpsStore :=
  ⟨l.map (·.id), fun i => l.find? (fun op => op.id == i)⟩

/-- `s` holds exactly the operations `l`, in index order. -/
def Represents (s : OpsStore) (l : List PendingOp) : Prop :=
  s.opsIndex = l.map (·.id) ∧ ∀ op ∈ l, s.opRecords op.id = some op

theorem fixOp_of_ts_ne (now : Nat) (op : PendingOp) (h : op.timestamp ≠ 0) :
    fixOp now op = op := by
  simp [fixOp, h]

theorem filterMap_records (l : List PendingOp) (r : String → Option PendingOp)
    (h : ∀ op ∈ l, r op.id = some op) :
    (l.map (·.id)).filterMap r = l := by
  induction l with
  | nil => rfl
  | cons a t ih =>
      simp only [List.map_cons, List.filterMap_cons, h a (List.mem_cons_self _ _)]
      rw [ih (fun op ho => h op (List.mem_cons_of_mem _ ho))]

/-- `dequeueOperations` on a store holding exactly a timestamp-sorted
list returns that list. -/
theorem dequeue_represents (s : OpsStore) (l : List PendingOp)
    (h : Represents s l) (hsorted : List.Sorted tsLe l) :
    dequeueOperations s = l := by
  unfold dequeueOperations
  rw [h.1, filterMap_records l s.opRecords h.2]
  exact hsorted.insertionSort_eq

theorem find?_id_of_nodup (op : PendingOp) :
    ∀ l : List PendingOp, (l.map (·.id)).Nodup → op ∈ l →
      l.find? (fun o => o.id == op.id) = some op
  | [], _, hop => absurd hop (List.not_mem_nil op)
  | a :: t, hids, hop => by
      simp only [List.map_cons, List.nodup_cons] at hids
      rcases List.mem_cons.mp hop with rfl | hmem
      · simp [List.find?_cons_of_pos]
      · have hne : (a.id == op.id) = false := by
          simp only [beq_eq_false_iff_ne, ne_eq]
          intro h
          exact hids.1 (h ▸ List.mem_map_of_mem _ hmem)
        rw [List.find?_cons_of_neg _ (by simp [hne]),
          find?_id_of_nodup op t hids.2 hmem]

theorem represents_opsStoreOf (l : List PendingOp) (hids : (l.map (·.id)).Nodup) :
    Represents (opsStoreOf l) l :=
  ⟨rfl, fun op hop => find?_id_of_nodup op l hids hop⟩

theorem dequeue_nil_index (s : OpsStore) (h : s.opsIndex = []) :
    dequeueOperations s = [] := by
  unfold dequeueOperations
  rw [h]
  rfl

/-- Loop behaviour when the processor returns `false` and every
operation is still below the retry ceiling: each operation is
re-persisted with `retries + 1` and nothing is counted. -/
theorem runOps_allFalse_below (now : Nat) :
    ∀ (L : List PendingOp) (s : OpsStore),
      (∀ op ∈ L, op.retries + 2 ≤ maxRetries) →
      runOps now procFalse s L
        = (L.foldl (fun s' op => enqueueOperation s' now (incrRetries op)) s,
           ⟨0, 0⟩, L.map QueueEvent.offered)
  | [], _, _ => rfl
  | op :: rest, s, hl => by
      have hlt : ¬ maxRetries ≤ op.retries + 1 := by
        have := hl op (List.mem_cons_self _ _)
        omega
      have hrec := runOps_allFalse_below now rest
        (enqueueOperation s now (incrRetries op))
        (fun o ho => hl o (List.mem_cons_of_mem _ ho))
      simp only [runOps, processOne, procFalse, if_neg hlt, List.foldl_cons,
        List.map_cons, incrRetries] at hrec ⊢
      simp [hrec]

/-- Loop behaviour when the processor returns `false` and every
operation has exhausted its retries: each operation is removed, counted
`failed`, and the error callback fires once with the incremented op. -/
theorem runOps_allFalse_atMax (now : Nat) :
    ∀ (L : List PendingOp) (s : OpsStore),
      (∀ op ∈ L, maxRetries ≤ op.retries + 1) →
      runOps now procFalse s L
        = (L.foldl (fun s' op => removeOperation s' op.id) s, ⟨0, L.length⟩,
           L.flatMap fun op => [.offered op, .onError (incrRetries op) true])
  | [], _, _ => rfl
  | op :: rest, s, hl => by
      have hge : maxRetries ≤ op.retries + 1 := hl op (List.mem_cons_self _ _)
      have hrec := runOps_allFalse_atMax now rest (removeOperation s op.id)
        (fun o ho => hl o (List.mem_cons_of_mem _ ho))
      simp only [runOps, processOne, procFalse, if_pos hge, List.foldl_cons,
        List.flatMap_cons, List.length_cons, incrRetries] at hrec ⊢
      simp [hrec, Nat.add_comm]

/-- Loop behaviour when the processor returns `true` on every offer:
each operation is removed and counted `processed`. -/
theorem runOps_allTrue (now : Nat) :
    ∀ (L : List PendingOp) (s : OpsStore),
      runOps now procTrue s L
        = (L.foldl (fun s' op => removeOperation s' op.id) s, ⟨L.length, 0⟩,
           L.flatMap fun op => [.offered op, .opProcessed op true])
  | [], _ => rfl
  | op :: rest, s => by
      have hrec := runOps_allTrue now rest (removeOperation s op.id)
      simp only [runOps, processOne, procTrue, List.foldl_cons,
        List.flatMap_cons, List.length_cons] at hrec ⊢
      simp [hrec, Nat.add_comm]

/-- Re-persisting a batch of updated operations (ids unchanged, all ids
already indexed, distinct): the index is unchanged, the batch's records
are updated, other records untouched. -/
theorem foldl_enqueue_pointwise (now : Nat) (g : PendingOp → PendingOp)
    (hgid : ∀ op, (g op).id = op.id) :
    ∀ (L : List PendingOp) (s : OpsStore),
      (L.map (·.id)).Nodup →
      (∀ op ∈ L, op.id ∈ s.opsIndex) →
      (L.foldl (fun s' op => enqueueOperation s' now (g op)) s).opsIndex = s.opsIndex ∧
      (∀ op ∈ L, (L.foldl (fun s' op => enqueueOperation s' now (g op)) s).opRecords op.id
          = some (fixOp now (g op))) ∧
      (∀ i, i ∉ L.map (·.id) →
        (L.foldl (fun s' op => enqueueOperation s' now (g op)) s).opRecords i
          = s.opRecords i)
  | [], s, _, _ => ⟨rfl, fun op hop => absurd hop (List.not_mem_nil op), fun _ _ => rfl⟩
  | a :: t, s, hids, hin => by
      simp only [List.map_cons, List.nodup_cons] at hids
      have hidx1 : (enqueueOperation s now (g a)).opsIndex = s.opsIndex := by
        unfold enqueueOperation
        rw [hgid a]
        simp [hin a (List.mem_cons_self _ _)]
      have hrec := foldl_enqueue_pointwise now g hgid t (enqueueOperation s now (g a))
        hids.2 (fun op hop => by rw [hidx1]; exact hin op (List.mem_cons_of_mem _ hop))
      refine ⟨by rw [List.foldl_cons, hrec.1, hidx1], ?_, ?_⟩
      · intro op hop
        rcases List.mem_cons.mp hop with rfl | hmem
        · rw [List.foldl_cons, hrec.2.2 op.id hids.1]
          unfold enqueueOperation
          simp only [hgid op]
          exact upd_get _ _ _
        · rw [List.foldl_cons]
          exact hrec.2.1 op hmem
      · intro i hi
        simp only [List.map_cons, List.mem_cons, not_or] at hi
        rw [List.foldl_cons, hrec.2.2 i hi.2]
        unfold enqueueOperation
        simp only [upd, hgid a]
        rw [if_neg hi.1]

/-- Removing every indexed operation empties the index. -/
theorem foldl_remove_empties (l : List PendingOp) :
    ∀ (L : List PendingOp) (s : OpsStore),
      (∀ i ∈ s.opsIndex, i ∈ L.map (·.id)) →
      (L.foldl (fun s' op => removeOperation s' op.id) s).opsIndex = []
  | [], s, h => List.eq_nil_iff_forall_not_mem.mpr
      (fun i hi => absurd (h i hi) (List.not_mem_nil i))
  | a :: t, s, h => by
      rw [List.foldl_cons]
      apply foldl_remove_empties l t
      intro i hi
      simp only [removeOperation, List.mem_filter, decide_eq_true_eq] at hi
      have := h i hi.1
      simp only [List.map_cons, List.mem_cons] at this
      rcases this with h1 | h1
      · exact absurd h1 hi.2
      · exact h1

/-- A `processQueue` call that actually enters the loop, in terms of
`runOps` on the dequeued snapshot. -/
theorem processQueue_run (q : QueueState) (now : Nat) (proc : PendingOp → ProcResult)
    (l : List PendingOp) (hflag : q.isProcessing = false)
    (hdeq : dequeueOperations q.ops = l) (hne : l ≠ []) :
    processQueue q now proc true
      = (⟨(runOps now proc q.ops l).1, false⟩, .ok (runOps now proc q.ops l).2.1,
         (runOps now proc q.ops l).2.2 ++
           (if 0 < (runOps now proc q.ops l).2.1.processed ∧
               (dequeueOperations (runOps now proc q.ops l).1).length = 0 then
              [QueueEvent.queueEmpty] else [])) := by
  have hlen : ¬ l.length = 0 := fun h => hne (List.length_eq_zero.mp h)
  unfold processQueue
  simp only [hflag, Bool.false_eq_true, if_false, hdeq, hlen, Bool.true_eq_false]

/-- Ids are unchanged by a retry increment. -/
theorem map_id_map_incrRetries (l : List PendingOp) :
    (l.map incrRetries).map (·.id) = l.map (·.id) := by
  rw [List.map_map]
  exact List.map_congr_left fun op _ => rfl

/-- Timestamps are unchanged by a retry increment, so sortedness is
preserved. -/
theorem sorted_map_incrRetries (l : List PendingOp) (h : List.Sorted tsLe l) :
    List.Sorted tsLe (l.map incrRetries) :=
  List.Pairwise.map incrRetries (fun _ _ hab => hab) h

/-- After a below-ceiling all-`false` run over a store holding `l`, the
store holds exactly the operations with `retries` incremented. -/
theorem represents_after_false_run (now : Nat) (l : List PendingOp) (s : OpsStore)
    (hrep : Represents s l) (hids : (l.map (·.id)).Nodup)
    (hts0 : ∀ op ∈ l, op.timestamp ≠ 0)
    (hlow : ∀ op ∈ l, op.retries + 2 ≤ maxRetries) :
    Represents (runOps now procFalse s l).1 (l.map incrRetries) := by
  rw [runOps_allFalse_below now l s hlow]
  have hin : ∀ op ∈ l, op.id ∈ s.opsIndex := by
    intro op hop
    rw [hrep.1]
    exact List.mem_map_of_mem _ hop
  have hfold := foldl_enqueue_pointwise now incrRetries (fun _ => rfl) l s hids hin
  constructor
  · rw [hfold.1, hrep.1, map_id_map_incrRetries]
  · intro op' hop'
    obtain ⟨op, hop, rfl⟩ := List.mem_map.mp hop'
    have : (incrRetries op).id = op.id := rfl
    rw [this, hfold.2.1 op hop,
      fixOp_of_ts_ne now (incrRetries op) (hts0 op hop)]

/-- Is this event an offer of the operation with id `i`? -/
def isOfferedWithId (i : String) : QueueEvent → Bool
  | .offered op => op.id == i
  | _ => false

/-- Is this event an error callback for the operation with id `i`? -/
def isErrorWithId (i : String) : QueueEvent → Bool
  | .onError op _ => op.id == i
  | _ => false

theorem countP_flatMap {α β : Type} (p : β → Bool) (f : α → List β) :
    ∀ l : List α, (l.flatMap f).countP p = (l.map fun a => (f a).countP p).sum := by
  intro l
  induction l with
  | nil => rfl
  | cons a t ih => simp [List.flatMap_cons, List.countP_append, ih]

theorem sum_ite_one {α : Type} (q : α → Bool) :
    ∀ l : List α, (l.map fun a => if q a then 1 else 0).sum = l.countP q := by
  intro l
  induction l with
  | nil => rfl
  | cons a t ih =>
      simp only [List.map_cons, List.sum_cons, List.countP_cons, ih]
      omega

theorem countP_offered_map (i : String) (l : List PendingOp) :
    (l.map QueueEvent.offered).countP (isOfferedWithId i)
      = l.countP (fun op => op.id == i) := by
  rw [List.countP_map]
  rfl

theorem countP_error_map_offered (i : String) (l : List PendingOp) :
    (l.map QueueEvent.offered).countP (isErrorWithId i) = 0 := by
  rw [List.countP_map]
  apply List.countP_eq_zero.mpr
  intro a _
  simp [Function.comp, isErrorWithId]

theorem countP_id_one (l : List PendingOp) (i : String)
    (hids : (l.map (·.id)).Nodup) (hmem : i ∈ l.map (·.id)) :
    l.countP (fun op => op.id == i) = 1 := by
  have h1 : l.countP (fun op => op.id == i) = (l.map (·.id)).countP (· == i) := by
    rw [List.countP_map]
    rfl
  rw [h1, ← List.count_eq_countP]
  exact List.count_eq_one_of_mem hids hmem

theorem countP_id_map_incrRetries (l : List PendingOp) (i : String) :
    (l.map incrRetries).countP (fun op => op.id == i)
      = l.countP (fun op => op.id == i) := by
  rw [List.countP_map]
  rfl

theorem countP_offered_flatMap_pairs (i : String) (l : List PendingOp)
    (g : PendingOp → QueueEvent)
    (hg : ∀ op, isOfferedWithId i (g op) = false) :
    (l.flatMap fun op => [QueueEvent.offered op, g op]).countP (isOfferedWithId i)
      = l.countP (fun op => op.id == i) := by
  rw [countP_flatMap]
  have hpt : ∀ op : PendingOp,
      ([QueueEvent.offered op, g op].countP (isOfferedWithId i))
        = if op.id == i then 1 else 0 := by
    intro op
    have h1 : isOfferedWithId i (QueueEvent.offered op) = (op.id == i) := rfl
    simp only [List.countP_cons, List.countP_nil, h1, hg op]
    cases h : (op.id == i) <;> simp [h]
  rw [List.map_congr_left fun op _ => hpt op, sum_ite_one]

theorem countP_error_flatMap_pairs (i : String) (l : List PendingOp)
    (f : PendingOp → PendingOp) (hfid : ∀ op, (f op).id = op.id) :
    (l.flatMap fun op => [QueueEvent.offered op, QueueEvent.onError (f op) true]).countP
        (isErrorWithId i) = l.countP (fun op => op.id == i) := by
  rw [countP_flatMap]
  have hpt : ∀ op : PendingOp,
      ([QueueEvent.offered op, QueueEvent.onError (f op) true].countP (isErrorWithId i))
        = if op.id == i then 1 else 0 := by
    intro op
    have h1 : isErrorWithId i (QueueEvent.offered op) = false := rfl
    have h2 : isErrorWithId i (QueueEvent.onError (f op) true) = ((f op).id == i) := rfl
    simp only [List.countP_cons, List.countP_nil, h1, h2, hfid op]
    cases h : (op.id == i) <;> simp [h]
  rw [List.map_congr_left fun op _ => hpt op, sum_ite_one]

/-- First `processQueue` run over a fresh queue with the all-`false`
processor. -/
def falseRun1 (l : List PendingOp) (now : Nat) :
    QueueState × Except Unit QueueResults × List QueueEvent :=
  processQueue ⟨opsStoreOf l, false⟩ now procFalse true

/-- Second consecutive all-`false` run. -/
def falseRun2 (l : List PendingOp) (now₁ now₂ : Nat) :
    QueueState × Except Unit QueueResults × List QueueEvent :=
  processQueue (falseRun1 l now₁).1 now₂ procFalse true

/-- Third consecutive all-`false` run. -/
def falseRun3 (l : List PendingOp) (now₁ now₂ now₃ : Nat) :
    QueueState × Except Unit QueueResults × List QueueEvent :=
  processQueue (falseRun2 l now₁ now₂).1 now₃ procFalse true

/-- C5: operations enqueued in order are offered to the processor in
that order; with a processor that always returns `false`, each operation
is offered exactly `maxRetries` (3) times across consecutive
`processQueue` runs, after which the queue is empty and the error
callback has fired exactly once per operation; with a processor that
returns `true`, one run removes every operation and counts it
processed. -/
theorem processQueue_order_bounded_retry (l : List PendingOp) (now₁ now₂ now₃ : Nat)
    (hids : (l.map (·.id)).Nodup)
    (hsorted : List.Sorted tsLe l)
    (hretr : ∀ op ∈ l, op.retries = 0)
    (hts0 : ∀ op ∈ l, op.timestamp ≠ 0)
    (hne : l ≠ []) :
    dequeueOperations (opsStoreOf l) = l ∧
    (falseRun1 l now₁).2.2 = l.map QueueEvent.offered ∧
    (falseRun2 l now₁ now₂).2.2 = (l.map incrRetries).map QueueEvent.offered ∧
    (falseRun3 l now₁ now₂ now₃).2.2
      = ((l.map incrRetries).map incrRetries).flatMap
          (fun op => [QueueEvent.offered op, QueueEvent.onError (incrRetries op) true]) ∧
    (falseRun3 l now₁ now₂ now₃).2.1 = Except.ok ⟨0, l.length⟩ ∧
    dequeueOperations (falseRun3 l now₁ now₂ now₃).1.ops = [] ∧
    (∀ op ∈ l,
      ((falseRun1 l now₁).2.2 ++ (falseRun2 l now₁ now₂).2.2
          ++ (falseRun3 l now₁ now₂ now₃).2.2).countP (isOfferedWithId op.id)
        = maxRetries ∧
      ((falseRun1 l now₁).2.2 ++ (falseRun2 l now₁ now₂).2.2
          ++ (falseRun3 l now₁ now₂ now₃).2.2).countP (isErrorWithId op.id) = 1) ∧
    (processQueue ⟨opsStoreOf l, false⟩ now₁ procTrue true).2.1
        = Except.ok ⟨l.length, 0⟩ ∧
    dequeueOperations (processQueue ⟨opsStoreOf l, false⟩ now₁ procTrue true).1.ops
        = [] ∧
    (processQueue ⟨opsStoreOf l, false⟩ now₁ procTrue true).2.2
      = (l.flatMap fun op => [QueueEvent.offered op, QueueEvent.opProcessed op true])
          ++ [QueueEvent.queueEmpty] := by
  set l₁ := l.map incrRetries with hl₁
  set l₂ := l₁.map incrRetries with hl₂
  have hids₁ : (l₁.map (·.id)).Nodup := by
    rw [hl₁, map_id_map_incrRetries]
    exact hids
  have hids₂ : (l₂.map (·.id)).Nodup := by
    rw [hl₂, map_id_map_incrRetries]
    exact hids₁
  have hsorted₁ : List.Sorted tsLe l₁ := sorted_map_incrRetries l hsorted
  have hsorted₂ : List.Sorted tsLe l₂ := sorted_map_incrRetries l₁ hsorted₁
  have hts0₁ : ∀ op ∈ l₁, op.timestamp ≠ 0 := by
    intro op hop
    obtain ⟨o, ho, rfl⟩ := List.mem_map.mp hop
    exact hts0 o ho
  have hts0₂ : ∀ op ∈ l₂, op.timestamp ≠ 0 := by
    intro op hop
    obtain ⟨o, ho, rfl⟩ := List.mem_map.mp hop
    exact hts0₁ o ho
  have hretr₁ : ∀ op ∈ l₁, op.retries = 1 := by
    intro op hop
    obtain ⟨o, ho, rfl⟩ := List.mem_map.mp hop
    simp [incrRetries, hretr o ho]
  have hretr₂ : ∀ op ∈ l₂, op.retries = 2 := by
    intro op hop
    obtain ⟨o, ho, rfl⟩ := List.mem_map.mp hop
    simp [incrRetries, hretr₁ o ho]
  have hne₁ : l₁ ≠ [] := fun h => hne (List.map_eq_nil_iff.mp h)
  have hne₂ : l₂ ≠ [] := fun h => hne₁ (List.map_eq_nil_iff.mp h)
  -- run 1
  have hrep0 := represents_opsStoreOf l hids
  have hdeq0 : dequeueOperations (opsStoreOf l) = l :=
    dequeue_represents _ _ hrep0 hsorted
  have hlow0 : ∀ op ∈ l, op.retries + 2 ≤ maxRetries := by
    intro op hop
    rw [hretr op hop]
    decide
  have hrun1 := processQueue_run ⟨opsStoreOf l, false⟩ now₁ procFalse l rfl hdeq0 hne
  have hops1 := runOps_allFalse_below now₁ l (opsStoreOf l) hlow0
  have hev1 : (falseRun1 l now₁).2.2 = l.map QueueEvent.offered := by
    unfold falseRun1
    rw [hrun1]
    simp [hops1]
  have hstore1 : (falseRun1 l now₁).1.ops = (runOps now₁ procFalse (opsStoreOf l) l).1 := by
    unfold falseRun1
    rw [hrun1]
  have hflag1 : (falseRun1 l now₁).1.isProcessing = false := by
    unfold falseRun1
    rw [hrun1]
  have hrep1 : Represents (falseRun1 l now₁).1.ops l₁ := by
    rw [hstore1, hl₁]
    exact represents_after_false_run now₁ l (opsStoreOf l) hrep0 hids hts0 hlow0
  have hdeq1 : dequeueOperations (falseRun1 l now₁).1.ops = l₁ :=
    dequeue_represents _ _ hrep1 hsorted₁
  -- run 2
  have hlow1 : ∀ op ∈ l₁, op.retries + 2 ≤ maxRetries := by
    intro op hop
    rw [hretr₁ op hop]
    decide
  have hrun2 := processQueue_run (falseRun1 l now₁).1 now₂ procFalse l₁ hflag1 hdeq1 hne₁
  have hops2 := runOps_allFalse_below now₂ l₁ (falseRun1 l now₁).1.ops hlow1
  have hev2 : (falseRun2 l now₁ now₂).2.2 = l₁.map QueueEvent.offered := by
    unfold falseRun2
    rw [hrun2]
    simp [hops2]
  have hstore2 : (falseRun2 l now₁ now₂).1.ops
      = (runOps now₂ procFalse (falseRun1 l now₁).1.ops l₁).1 := by
    unfold falseRun2
    rw [hrun2]
  have hflag2 : (falseRun2 l now₁ now₂).1.isProcessing = false := by
    unfold falseRun2
    rw [hrun2]
  have hrep2 : Represents (falseRun2 l now₁ now₂).1.ops l₂ := by
    rw [hstore2, hl₂]
    exact represents_after_false_run now₂ l₁ _ hrep1 hids₁ hts0₁ hlow1
  have hdeq2 : dequeueOperations (falseRun2 l now₁ now₂).1.ops = l₂ :=
    dequeue_represents _ _ hrep2 hsorted₂
  -- run 3: retries exhausted
  have hmax2 : ∀ op ∈ l₂, maxRetries ≤ op.retries + 1 := by
    intro op hop
    rw [hretr₂ op hop]
    decide
  have hrun3 := processQueue_run (falseRun2 l now₁ now₂).1 now₃ procFalse l₂ hflag2 hdeq2 hne₂
  have hops3 := runOps_allFalse_atMax now₃ l₂ (falseRun2 l now₁ now₂).1.ops hmax2
  have hev3 : (falseRun3 l now₁ now₂ now₃).2.2
      = l₂.flatMap fun op => [QueueEvent.offered op, QueueEvent.onError (incrRetries op) true] := by
    unfold falseRun3
    rw [hrun3]
    simp [hops3]
  have hlen2 : l₂.length = l.length := by
    rw [hl₂, hl₁, List.length_map, List.length_map]
  have hres3 : (falseRun3 l now₁ now₂ now₃).2.1 = Except.ok ⟨0, l.length⟩ := by
    unfold falseRun3
    rw [hrun3]
    simp [hops3, hlen2]
  have hidx3 : (runOps now₃ procFalse (falseRun2 l now₁ now₂).1.ops l₂).1.opsIndex = [] := by
    rw [hops3]
    apply foldl_remove_empties l₂ l₂
    intro i hi
    rw [hrep2.1] at hi
    exact hi
  have hdeq3 : dequeueOperations (falseRun3 l now₁ now₂ now₃).1.ops = [] := by
    have hstore3 : (falseRun3 l now₁ now₂ now₃).1.ops
        = (runOps now₃ procFalse (falseRun2 l now₁ now₂).1.ops l₂).1 := by
      unfold falseRun3
      rw [hrun3]
    rw [hstore3]
    exact dequeue_nil_index _ hidx3
  -- per-operation counts
  have hcounts : ∀ op ∈ l,
      ((falseRun1 l now₁).2.2 ++ (falseRun2 l now₁ now₂).2.2
          ++ (falseRun3 l now₁ now₂ now₃).2.2).countP (isOfferedWithId op.id)
        = maxRetries ∧
      ((falseRun1 l now₁).2.2 ++ (falseRun2 l now₁ now₂).2.2
          ++ (falseRun3 l now₁ now₂ now₃).2.2).countP (isErrorWithId op.id) = 1 := by
    intro op hop
    have hmemid : op.id ∈ l.map (·.id) := List.mem_map_of_mem _ hop
    have hc1 : l.countP (fun o => o.id == op.id) = 1 := countP_id_one l op.id hids hmemid
    have hcl₁ : l₁.countP (fun o => o.id == op.id) = 1 := by
      rw [hl₁, countP_id_map_incrRetries]
      exact hc1
    have hcl₂ : l₂.countP (fun o => o.id == op.id) = 1 := by
      rw [hl₂, countP_id_map_incrRetries]
      exact hcl₁
    constructor
    · rw [hev1, hev2, hev3, List.countP_append, List.countP_append,
        countP_offered_map, countP_offered_map,
        countP_offered_flatMap_pairs op.id l₂
          (fun o => QueueEvent.onError (incrRetries o) true) (fun _ => rfl),
        hc1, hcl₁, hcl₂]
      decide
    · rw [hev1, hev2, hev3, List.countP_append, List.countP_append,
        countP_error_map_offered, countP_error_map_offered,
        countP_error_flatMap_pairs op.id l₂ incrRetries (fun _ => rfl), hcl₂]
  -- the all-true processor
  have hrunT := processQueue_run ⟨opsStoreOf l, false⟩ now₁ procTrue l rfl hdeq0 hne
  have hopsT := runOps_allTrue now₁ l (opsStoreOf l)
  have hidxT : (runOps now₁ procTrue (opsStoreOf l) l).1.opsIndex = [] := by
    rw [hopsT]
    apply foldl_remove_empties l l
    intro i hi
    exact hi
  have hdeqT : dequeueOperations (runOps now₁ procTrue (opsStoreOf l) l).1 = [] :=
    dequeue_nil_index _ hidxT
  have hdeqT' : dequeueOperations
      (List.foldl (fun s' op => removeOperation s' op.id) (opsStoreOf l) l) = [] := by
    apply dequeue_nil_index
    apply foldl_remove_empties l l
    intro i hi
    exact hi
  have hpos : 0 < l.length := List.length_pos.mpr hne
  refine ⟨hdeq0, hev1, hev2, hev3, hres3, hdeq3, hcounts, ?_, ?_, ?_⟩
  · rw [hrunT]
    simp [hopsT]
  · rw [hrunT]
    exact hdeqT
  · rw [hrunT]
    simp [hopsT, hdeqT', hpos]

/-- A queued operation for concrete scenarios. -/
def wopA : PendingOp := ⟨"a1", "update", "n1", "nb1", "x", 1, 0⟩

/-- A second queued operation, enqueued after `wopA`. -/
def wopB : PendingOp := ⟨"b2", "update", "n2", "nb1", "y", 2, 0⟩

/-- Witness for `processQueue_order_bounded_retry`. -/
theorem processQueue_order_bounded_retry_witness :
    (([wopA, wopB].map (·.id)).Nodup ∧ List.Sorted tsLe [wopA, wopB] ∧
      (∀ op ∈ [wopA, wopB], op.retries = 0) ∧
      (∀ op ∈ [wopA, wopB], op.timestamp ≠ 0) ∧
      ([wopA, wopB] : List PendingOp) ≠ []) ∧
    dequeueOperations (opsStoreOf [wopA, wopB]) = [wopA, wopB] ∧
    dequeueOperations (falseRun3 [wopA, wopB] 10 20 30).1.ops = [] ∧
    (falseRun3 [wopA, wopB] 10 20 30).2.1 = Except.ok ⟨0, 2⟩ :=
  have h := processQueue_order_bounded_retry [wopA, wopB] 10 20 30
    (by decide) (by decide) (by decide) (by decide) (by decide)
  ⟨⟨by decide, by decide, by decide, by decide, by decide⟩,
   h.1, h.2.2.2.2.2.1, h.2.2.2.2.1⟩

/-! ## Local Durable Store (client/src/utils/offline/OfflineQueue.js,
second embedded document: `LocalStorageAdapter`)

`localStorage` keys `notesync_<type>_<id...>` are modelled as structured
per-table maps (ids are assumed not to collide through the `_`
separator), JSON records as structures.  Only the operations the claims
exercise are embedded. -/

/-- Note record as stored by `saveNote`. -/
structure StoredNote where
  id : String
  notebookId : String
  title : Option String
  content : Option String
  tags : List String
  version : Nat
  createdAt : Nat
  updatedAt : Nat
  deriving DecidableEq, Repr

/-- The `note` argument of `saveNote` (fields may be absent). -/
structure NoteInput where
  id : String
  title : Option String
  content : Option String
  tags : Option (List String)
  version : Option Nat
  createdAt : Option Nat
  deriving DecidableEq, Repr

/-- Notebook record (fields beyond the claims' reach omitted). -/
structure Notebook where
  id : String
  name : String
  createdAt : Nat
  updatedAt : Nat
  deriving DecidableEq, Repr

/-- History entry record. -/
structure HistoryEntry where
  id : String
  noteId : String
  content : String
  version : Nat
  timestamp : Nat
  deviceName : String
  deriving DecidableEq, Repr

/-- The adapter's `localStorage` contents, table by table. -/
structure LS where
  notebooks : String → Option Notebook
  notebookIndex : List String
  notes : String → String → Option StoredNote
  notesIndex : String → List String
  history : String → String → Option HistoryEntry
  historyIndex : String → List String
  ops : OpsStore

/-- Empty storage. -/
def emptyLS : LS :=
  ⟨fun _ => none, [], fun _ _ => none, fun _ => [], fun _ _ => none, fun _ => [], emptyOps⟩

/-- Point update of a two-key table. -/
def upd2 {α : Type} (f : String → String → Option α) (k1 k2 : String) (v : Option α) :
    String → String → Option α :=
  fun a b => if a = k1 then (if b = k2 then v else f a b) else f a b

/-- Point update of a String-keyed list table. -/
def updL (f : String → List String) (k : String) (v : List String) :
    String → List String :=
  fun x => if x = k then v else f x

/-- JS `x || d` for numbers (absent or zero falls back). -/
def jsOrNat (x : Option Nat) (d : Nat) : Nat :=
  match x with
  | some v => if v = 0 then d else v
  | none => d

/-- `LocalStorageAdapter.getNote(notebookId, noteId)` (lines 439–443). -/
def getNote (st : LS) (nb nid : String) : Option StoredNote :=
  st.notes nb nid

/-- Comparator of `notes.sort((a, b) => b.updatedAt - a.updatedAt)`. -/
def updGe (a b : StoredNote) : Prop := b.updatedAt ≤ a.updatedAt

instance : DecidableRel updGe := fun a b => Nat.decLe b.updatedAt a.updatedAt

/-- `LocalStorageAdapter.listNotes(notebookId)` (lines 445–462): the
indexed records, missing ones skipped, sorted by `updatedAt`
descending. -/
def listNotes (st : LS) (notebookId : String) : List StoredNote :=
  List.insertionSort updGe ((st.notesIndex notebookId).filterMap (st.notes notebookId))

/-- `LocalStorageAdapter.saveNote(notebookId, note)` (lines 399–437).
The stored version is `existing ? existing.version + 1 : (note.version || 1)`;
`createdAt` is `existing?.createdAt || note.createdAt || now`. -/
def saveNote (st : LS) (notebookId : String) (note : NoteInput) (now : Nat) :
    Except String LS :=
  if note.id = "" ∨ notebookId = "" then
    .error "Invalid note data: id and notebookId are required"
  else if note.content = none ∧ note.title = none then
    .error "Invalid note data: content or title is required"
  else
    let existing := getNote st notebookId note.id
    let noteData : StoredNote :=
      { id := note.id
        notebookId := notebookId
        title := note.title
        content := note.content
        tags := note.tags.getD []
        version :=
          match existing with
          | some e => e.version + 1
          | none => jsOrNat note.version 1
        createdAt :=
          match existing with
          | some e => if e.createdAt = 0 then jsOrNat note.createdAt now else e.createdAt
          | none => jsOrNat note.createdAt now
        updatedAt := now }
    .ok
      { st with
          notes := upd2 st.notes notebookId note.id (some noteData),
          notesIndex := updL st.notesIndex notebookId
            (if note.id ∈ st.notesIndex notebookId then st.notesIndex notebookId
             else st.notesIndex notebookId ++ [note.id]) }

/-- `LocalStorageAdapter.deleteNote(notebookId, noteId)` (lines
464–487): removes the record, its index entry, every history record
stored under the note (the `notesync_history_<noteId>` prefix scan) and
the note's history index. -/
def deleteNote (st : LS) (notebookId noteId : String) : LS :=
  { st with
      notes := upd2 st.notes notebookId noteId none,
      notesIndex := updL st.notesIndex notebookId
        ((st.notesIndex notebookId).filter (fun nid => nid ≠ noteId)),
      history := fun nid eid => if nid = noteId then none else st.history nid eid,
      historyIndex := updL st.historyIndex noteId [] }

/-- `LocalStorageAdapter.getHistory(noteId, limit)` (lines 519–537). -/
def getHistory (st : LS) (noteId : String) (limit : Nat) : List HistoryEntry :=
  ((st.historyIndex noteId).take limit).filterMap (st.history noteId)

/-- The pending-operation cleanup of `deleteNotebook` (lines 384–392):
remove every `op_<id>` record whose `notebookId` matches; the
`ops_index` entry is not touched (dequeue skips missing records). -/
def removeNotebookOps (s : OpsStore) (id : String) : OpsStore :=
  { opsIndex := s.opsIndex,
    opRecords := fun oid =>
      match s.opRecords oid with
      | some op => if op.notebookId = id then none else some op
      | none => none }

/-- First two steps of `deleteNotebook`: remove the notebook record and
its index entry. -/
def notebookRemoved (st : LS) (id : String) : LS :=
  { st with
      notebooks := upd st.notebooks id none,
      notebookIndex := st.notebookIndex.filter (fun nid => nid ≠ id) }

/-- `LocalStorageAdapter.deleteNotebook(id)` (lines 365–395): remove the
notebook record and index entry, delete every listed note (cascading to
history), then drop the pending operations referencing the notebook. -/
def deleteNotebook (st : LS) (id : String) : LS :=
  let st2 := notebookRemoved st id
  let st3 := (listNotes st2 id).foldl (fun s note => deleteNote s id note.id) st2
  { st3 with ops := removeNotebookOps st3.ops id }

/-- A validated `saveNote` stores a record at `(notebookId, note.id)`
whose version follows `existing ? existing.version + 1 : (note.version || 1)`,
leaving every other slot untouched. -/
theorem saveNote_stored (st : LS) (nb : String) (note : NoteInput) (now : Nat)
    (hid : ¬(note.id = "" ∨ nb = ""))
    (hct : ¬(note.content = none ∧ note.title = none)) :
    ∃ st', saveNote st nb note now = .ok st' ∧
      (st'.notes nb note.id).map (·.version)
        = some (match st.notes nb note.id with
                | some e => e.version + 1
                | none => jsOrNat note.version 1) ∧
      (∀ a b, ¬(a = nb ∧ b = note.id) → st'.notes a b = st.notes a b) := by
  unfold saveNote
  rw [if_neg hid, if_neg hct]
  refine ⟨_, rfl, ?_, ?_⟩
  · simp [upd2, getNote]
  · intro a b hab
    simp only [upd2]
    by_cases h1 : a = nb
    · subst h1
      have h2 : ¬ b = note.id := fun h => hab ⟨rfl, h⟩
      simp [h2]
    · simp [h1]

/-- `saveNote` with the error swallowed (used to iterate saves). -/
def saveNoteD (st : LS) (nb : String) (note : NoteInput) (now : Nat) : LS :=
  match saveNote st nb note now with
  | .ok st' => st'
  | .error _ => st

/-- `N` successive saves of the same note input. -/
def saveIter (nb : String) (note : NoteInput) (now : Nat) : Nat → LS → LS
  | 0, st => st
  | k + 1, st => saveIter nb note now k (saveNoteD st nb note now)

/-- Each further save of an existing note adds exactly 1 to the stored
version. -/
theorem saveIter_version (nb : String) (note : NoteInput) (now : Nat)
    (hid : ¬(note.id = "" ∨ nb = ""))
    (hct : ¬(note.content = none ∧ note.title = none)) :
    ∀ (k : Nat) (st : LS) (v : Nat),
      (st.notes nb note.id).map (·.version) = some v →
      ((saveIter nb note now k st).notes nb note.id).map (·.version) = some (v + k)
  | 0, st, v, h => by simpa using h
  | k + 1, st, v, h => by
      obtain ⟨e, he, hv⟩ : ∃ e, st.notes nb note.id = some e ∧ e.version = v := by
        cases hx : st.notes nb note.id with
        | none =>
            rw [hx] at h
            exact Option.noConfusion h
        | some e =>
            rw [hx] at h
            exact ⟨e, rfl, Option.some.inj h⟩
      obtain ⟨st', hok, hver, -⟩ := saveNote_stored st nb note now hid hct
      have hD : saveNoteD st nb note now = st' := by
        simp [saveNoteD, hok]
      have hv' : (st'.notes nb note.id).map (·.version) = some (v + 1) := by
        rw [hver, he]
        show some (e.version + 1) = some (v + 1)
        rw [hv]
      simp only [saveIter, hD]
      rw [saveIter_version nb note now hid hct k st' (v + 1) hv']
      congr 1
      omega

/-- C2 (amended): a validated save over an existing record stores
`existing.version + 1`; over a fresh id it stores `note.version` when
that is present and non-zero, and `1` when it is absent or zero (JS
`note.version || 1`); consequently `N` validated saves to a fresh id
that never supply a version store versions `1, 2, ..., N`. -/
theorem saveNote_version_rule (st : LS) (nb : String) (note : NoteInput) (now : Nat)
    (hid : ¬(note.id = "" ∨ nb = ""))
    (hct : ¬(note.content = none ∧ note.title = none)) :
    (∀ e, st.notes nb note.id = some e →
        ∃ st', saveNote st nb note now = .ok st' ∧
          (st'.notes nb note.id).map (·.version) = some (e.version + 1)) ∧
    (st.notes nb note.id = none →
        ∃ st', saveNote st nb note now = .ok st' ∧
          (st'.notes nb note.id).map (·.version) = some (jsOrNat note.version 1)) ∧
    (note.version = none → st.notes nb note.id = none →
        ∀ N, 1 ≤ N →
          ((saveIter nb note now N st).notes nb note.id).map (·.version) = some N) := by
  obtain ⟨st', hok, hver, -⟩ := saveNote_stored st nb note now hid hct
  refine ⟨?_, ?_, ?_⟩
  · intro e he
    refine ⟨st', hok, ?_⟩
    rw [hver, he]
  · intro hnone
    refine ⟨st', hok, ?_⟩
    rw [hver, hnone]
  · intro hv hnone N hN
    obtain ⟨k, rfl⟩ : ∃ k, N = k + 1 := ⟨N - 1, by omega⟩
    have hD : saveNoteD st nb note now = st' := by
      simp [saveNoteD, hok]
    have h1 : (st'.notes nb note.id).map (·.version) = some 1 := by
      rw [hver, hnone, hv]
      rfl
    simp only [saveIter, hD]
    rw [saveIter_version nb note now hid hct k st' 1 h1]
    congr 1
    omega

/-- The supplied-version-zero note of the C2 counterexample. -/
def c2note : NoteInput := ⟨"n1", some "t", none, none, some 0, none⟩

/-- C2 counterexample: a validated save of a fresh note that supplies
`version: 0` stores version `1`, not the supplied `0` — the code uses JS
`note.version || 1`, not `note.version ?? 1`. -/
theorem saveNote_supplied_zero_version :
    c2note.version = some 0 ∧
    (match saveNote emptyLS "nb1" c2note 100 with
     | .ok st' => (st'.notes "nb1" "n1").map (·.version)
     | .error _ => none) = some 1 ∧
    (match saveNote emptyLS "nb1" c2note 100 with
     | .ok st' => (st'.notes "nb1" "n1").map (·.version)
     | .error _ => none) ≠ c2note.version := by
  refine ⟨rfl, rfl, by decide⟩

/-- Witness for `saveNote_version_rule`: three no-version saves of a
fresh note yield stored version 3. -/
theorem saveNote_version_rule_witness :
    (¬((⟨"n1", some "t", none, none, none, none⟩ : NoteInput).id = "" ∨ "nb1" = "")) ∧
    emptyLS.notes "nb1" "n1" = none ∧
    ((saveIter "nb1" ⟨"n1", some "t", none, none, none, none⟩ 7 3 emptyLS).notes
        "nb1" "n1").map (·.version) = some 3 :=
  ⟨by decide, rfl,
   (saveNote_version_rule emptyLS "nb1" ⟨"n1", some "t", none, none, none, none⟩ 7
     (by decide) (by decide)).2.2 rfl rfl 3 (by decide)⟩

theorem foldl_deleteNote_notebooks (id : String) :
    ∀ (L : List StoredNote) (s : LS),
      (L.foldl (fun s' n => deleteNote s' id n.id) s).notebooks = s.notebooks
  | [], _ => rfl
  | a :: t, s => foldl_deleteNote_notebooks id t (deleteNote s id a.id)

theorem foldl_deleteNote_ops (id : String) :
    ∀ (L : List StoredNote) (s : LS),
      (L.foldl (fun s' n => deleteNote s' id n.id) s).ops = s.ops
  | [], _ => rfl
  | a :: t, s => foldl_deleteNote_ops id t (deleteNote s id a.id)

theorem foldl_deleteNote_notes_none (id : String) :
    ∀ (L : List StoredNote) (s : LS) (a b : String),
      s.notes a b = none →
      (L.foldl (fun s' n => deleteNote s' id n.id) s).notes a b = none
  | [], _, _, _, h => h
  | n :: t, s, a, b, h => by
      apply foldl_deleteNote_notes_none id t
      show upd2 s.notes id n.id none a b = none
      unfold upd2
      by_cases h1 : a = id
      · subst h1
        by_cases h2 : b = n.id
        · simp [h2]
        · simp [h2, h]
      · simp [h1, h]

theorem foldl_deleteNote_deletes (id : String) :
    ∀ (L : List StoredNote) (s : LS) (n : StoredNote), n ∈ L →
      (L.foldl (fun s' n' => deleteNote s' id n'.id) s).notes id n.id = none
  | [], _, n, h => absurd h (List.not_mem_nil n)
  | a :: t, s, n, h => by
      rcases List.mem_cons.mp h with rfl | hmem
      · apply foldl_deleteNote_notes_none id t
        show upd2 s.notes id n.id none id n.id = none
        unfold upd2
        rw [if_pos rfl, if_pos rfl]
      · exact foldl_deleteNote_deletes id t _ n hmem

theorem foldl_deleteNote_index_subset (id : String) :
    ∀ (L : List StoredNote) (s : LS) (x : String),
      x ∈ (L.foldl (fun s' n' => deleteNote s' id n'.id) s).notesIndex id →
      x ∈ s.notesIndex id
  | [], _, _, h => h
  | a :: t, s, x, h => by
      have h1 := foldl_deleteNote_index_subset id t _ x h
      have h2 : x ∈ updL s.notesIndex id
          ((s.notesIndex id).filter (fun nid => nid ≠ a.id)) id := h1
      unfold updL at h2
      rw [if_pos rfl] at h2
      exact (List.mem_filter.mp h2).1

theorem foldl_deleteNote_historyIndex_nil (id : String) :
    ∀ (L : List StoredNote) (s : LS) (x : String),
      s.historyIndex x = [] →
      (L.foldl (fun s' n' => deleteNote s' id n'.id) s).historyIndex x = []
  | [], _, _, h => h
  | a :: t, s, x, h => by
      apply foldl_deleteNote_historyIndex_nil id t
      show updL s.historyIndex a.id [] x = []
      unfold updL
      by_cases h1 : x = a.id
      · rw [if_pos h1]
      · rw [if_neg h1]
        exact h

theorem listNotes_eq_nil (s : LS) (nb : String)
    (h : ∀ x ∈ s.notesIndex nb, s.notes nb x = none) : listNotes s nb = [] := by
  unfold listNotes
  rw [List.filterMap_eq_nil_iff.mpr h]
  rfl

theorem foldl_deleteNote_clears_history (id : String) :
    ∀ (L : List StoredNote) (s : LS) (n : StoredNote), n ∈ L →
      (L.foldl (fun s' n' => deleteNote s' id n'.id) s).historyIndex n.id = []
  | [], _, n, h => absurd h (List.not_mem_nil n)
  | a :: t, s, n, h => by
      rcases List.mem_cons.mp h with rfl | hmem
      · apply foldl_deleteNote_historyIndex_nil id t
        show updL s.historyIndex n.id [] n.id = []
        unfold updL
        rw [if_pos rfl]
      · exact foldl_deleteNote_clears_history id t _ n hmem

/-- C6: after `deleteNotebook(id)` the notebook record is gone,
`listNotes(id)` is empty, `getHistory` is empty for every note that
belonged to the notebook, and no pending operation referencing the
notebook remains dequeueable.  The well-formedness hypothesis says the
stored note records carry the id they are keyed under, which `saveNote`
guarantees. -/
theorem deleteNotebook_cascade (st : LS) (id : String)
    (hwf : ∀ nid n, st.notes id nid = some n → n.id = nid) :
    (deleteNotebook st id).notebooks id = none ∧
    listNotes (deleteNotebook st id) id = [] ∧
    (∀ n ∈ listNotes st id, ∀ limit, getHistory (deleteNotebook st id) n.id limit = []) ∧
    (∀ op ∈ dequeueOperations (deleteNotebook st id).ops, op.notebookId ≠ id) := by
  have hL : listNotes (notebookRemoved st id) id = listNotes st id := rfl
  refine ⟨?_, ?_, ?_, ?_⟩
  · show ((listNotes st id).foldl (fun s note => deleteNote s id note.id)
        (notebookRemoved st id)).notebooks id = none
    rw [foldl_deleteNote_notebooks]
    show upd st.notebooks id none id = none
    exact upd_get _ _ _
  · show listNotes ((listNotes st id).foldl (fun s note => deleteNote s id note.id)
        (notebookRemoved st id)) id = []
    apply listNotes_eq_nil
    intro x hx
    have hx0 : x ∈ st.notesIndex id :=
      foldl_deleteNote_index_subset id (listNotes st id) (notebookRemoved st id) x hx
    cases hn : st.notes id x with
    | none =>
        exact foldl_deleteNote_notes_none id (listNotes st id) (notebookRemoved st id)
          id x hn
    | some n =>
        have hid : n.id = x := hwf x n hn
        have hmem : n ∈ listNotes st id := by
          unfold listNotes
          exact (List.perm_insertionSort updGe _).mem_iff.mpr
            (List.mem_filterMap.mpr ⟨x, hx0, hn⟩)
        have hdel := foldl_deleteNote_deletes id (listNotes st id)
          (notebookRemoved st id) n hmem
        rw [hid] at hdel
        exact hdel
  · intro n hn limit
    show (((((listNotes st id).foldl (fun s note => deleteNote s id note.id)
        (notebookRemoved st id)).historyIndex n.id).take limit).filterMap _) = []
    rw [foldl_deleteNote_clears_history id (listNotes st id) _ n hn]
    simp
  · intro op hop
    have hmem := (List.perm_insertionSort tsLe _).subset hop
    obtain ⟨oid, -, hrec⟩ := List.mem_filterMap.mp hmem
    have hops : (deleteNotebook st id).ops
        = removeNotebookOps ((listNotes st id).foldl
            (fun s note => deleteNote s id note.id) (notebookRemoved st id)).ops id := rfl
    rw [hops] at hrec
    simp only [removeNotebookOps] at hrec
    revert hrec
    cases hx : (((listNotes st id).foldl (fun s note => deleteNote s id note.id)
        (notebookRemoved st id)).ops).opRecords oid with
    | none =>
        intro hrec
        exact Option.noConfusion hrec
    | some op₀ =>
        intro hrec
        have hrec' : (if op₀.notebookId = id then none else some op₀) = some op := hrec
        by_cases heq : op₀.notebookId = id
        · rw [if_pos heq] at hrec'
          exact Option.noConfusion hrec'
        · rw [if_neg heq] at hrec'
          rw [← Option.some.inj hrec']
          exact heq

/-- A concrete store: one notebook with one note, one history entry for
the note, and one pending operation referencing the notebook. -/
def c6st : LS :=
  { emptyLS with
      notebooks := upd emptyLS.notebooks "nb1" (some ⟨"nb1", "Name", 1, 1⟩),
      notebookIndex := ["nb1"],
      notes := upd2 emptyLS.notes "nb1" "n1"
        (some ⟨"n1", "nb1", some "t", some "c", [], 1, 1, 2⟩),
      notesIndex := updL emptyLS.notesIndex "nb1" ["n1"],
      history := upd2 emptyLS.history "n1" "h1" (some ⟨"h1", "n1", "c", 1, 1, "dev"⟩),
      historyIndex := updL emptyLS.historyIndex "n1" ["h1"],
      ops := enqueueOperation emptyOps 5 ⟨"op1", "update", "n1", "nb1", "d", 5, 0⟩ }

/-- Witness for `deleteNotebook_cascade`. -/
theorem deleteNotebook_cascade_witness :
    (deleteNotebook c6st "nb1").notebooks "nb1" = none ∧
    listNotes (deleteNotebook c6st "nb1") "nb1" = [] ∧
    getHistory (deleteNotebook c6st "nb1") "n1" 50 = [] ∧
    dequeueOperations (deleteNotebook c6st "nb1").ops = [] := by
  have hwf : ∀ nid n, c6st.notes "nb1" nid = some n → n.id = nid := by
    intro nid n h
    have h' : (if nid = "n1" then
        some (⟨"n1", "nb1", some "t", some "c", [], 1, 1, 2⟩ : StoredNote)
      else none) = some n := by
      simpa [c6st, upd2, emptyLS] using h
    by_cases h2 : nid = "n1"
    · subst h2
      rw [if_pos rfl] at h'
      rw [← Option.some.inj h']
    · rw [if_neg h2] at h'
      exact Option.noConfusion h'
  have h := deleteNotebook_cascade c6st "nb1" hwf
  refine ⟨h.1, h.2.1, ?_, by decide⟩
  have hmem : (⟨"n1", "nb1", some "t", some "c", [], 1, 1, 2⟩ : StoredNote)
      ∈ listNotes c6st "nb1" := by decide
  exact h.2.2.1 _ hmem 50

/-! ## Operation log (SQLitePersistence.appendLog, src/unnamed/part_003
lines 292–336)

The `operation_logs` table rows for one room are a list of entries; the
post-insert trim keeps the 1000 rows first under
`ORDER BY version DESC, timestamp DESC` (SQLite leaves ties
unspecified; the model breaks them stably by scan order). -/

/-- One `operation_logs` row. -/
structure LogEntry where
  opId : String
  opType : String
  position : Nat
  content : Option String
  length : Option Nat
  timestamp : Nat
  deviceId : String
  version : Nat
  deriving DecidableEq, Repr

/-- `DataValidator.isValidOperation`: type in {insert, delete, replace},
`timestamp > 0` (`position ≥ 0` and `version ≥ 0` hold by the `Nat`
embedding). -/
def isValidOperation (op : LogEntry) : Bool :=
  (op.opType == "insert" || op.opType == "delete" || op.opType == "replace")
    && decide (0 < op.timestamp)

/-- `ORDER BY version DESC, timestamp DESC`: `a` sorts no later than `b`
iff `a`'s key (version, timestamp) is at least `b`'s. -/
def logKeyGe (a b : LogEntry) : Prop :=
  b.version < a.version ∨ (a.version = b.version ∧ b.timestamp ≤ a.timestamp)

instance : DecidableRel logKeyGe := fun a b => by
  unfold logKeyGe
  infer_instance

instance : IsTotal LogEntry logKeyGe :=
  ⟨by
    intro a b
    unfold logKeyGe
    omega⟩

instance : IsTrans LogEntry logKeyGe :=
  ⟨by
    intro a b c hab hbc
    unfold logKeyGe at hab hbc ⊢
    omega⟩

/-- `a` strictly precedes `b` under the ordering key
(version, then timestamp). -/
def logKeyLt (a b : LogEntry) : Prop :=
  a.version < b.version ∨ (a.version = b.version ∧ a.timestamp < b.timestamp)

instance : DecidableRel logKeyLt := fun a b => by
  unfold logKeyLt
  infer_instance

/-- The rows kept by the trim: the 1000 greatest under the key. -/
def trimLog (l : List LogEntry) : List LogEntry :=
  (List.insertionSort logKeyGe l).take 1000

/-- The rows the trim deletes. -/
def droppedLog (l : List LogEntry) : List LogEntry :=
  (List.insertionSort logKeyGe l).drop 1000

/-- `SQLitePersistence.appendLog(roomId, operation)`: validate, insert
the row, trim the room's log to the last 1000 entries. -/
def appendLog (roomId : String) (op : LogEntry) (logs : String → List LogEntry) :
    Except String (String → List LogEntry) :=
  if ¬ isValidRoomId roomId then
    .error "Invalid room ID"
  else if ¬ isValidOperation op then
    .error "Invalid operation"
  else
    .ok (fun r => if r = roomId then trimLog (logs roomId ++ [op]) else logs r)

/-- C9 (amended): after every completed `appendLog(roomId, operation)`
the room's stored log has at most 1000 entries, and every retained entry
is at least every trimmed entry under the ordering key
(version, then timestamp) — i.e. no trimmed entry follows a retained
one; strict precedence can fail when entries tie on the key. -/
theorem appendLog_trims_to_recent (roomId : String) (op : LogEntry)
    (logs logs' : String → List LogEntry)
    (h : appendLog roomId op logs = .ok logs') :
    (logs' roomId).length ≤ 1000 ∧
    ∀ t ∈ droppedLog (logs roomId ++ [op]), ∀ r ∈ logs' roomId, logKeyGe r t := by
  unfold appendLog at h
  by_cases h1 : ¬ isValidRoomId roomId
  · rw [if_pos h1] at h
    exact Except.noConfusion h
  · rw [if_neg h1] at h
    by_cases h2 : ¬ isValidOperation op
    · rw [if_pos h2] at h
      exact Except.noConfusion h
    · rw [if_neg h2] at h
      have hl : logs' = fun r =>
          if r = roomId then trimLog (logs roomId ++ [op]) else logs r :=
        (Except.ok.inj h).symm
      have hroom : logs' roomId = trimLog (logs roomId ++ [op]) := by
        rw [hl]
        simp
      constructor
      · rw [hroom]
        unfold trimLog
        rw [List.length_take]
        exact min_le_left _ _
      · intro t ht r hr
        rw [hroom] at hr
        have hs : List.Sorted logKeyGe
            (List.insertionSort logKeyGe (logs roomId ++ [op])) :=
          List.sorted_insertionSort logKeyGe _
        have hsplit := List.take_append_drop 1000
          (List.insertionSort logKeyGe (logs roomId ++ [op]))
        rw [← hsplit] at hs
        exact (List.pairwise_append.mp hs).2.2 r hr t ht

/-- The tied log entry of the C9 counterexample. -/
def c9e : LogEntry := ⟨"e1", "insert", 0, none, none, 5, "dev", 1⟩

/-- C9 counterexample: appending to a room whose 1000 stored entries all
share the ordering key (version, timestamp) of the new entry trims one
tied entry, which does not strictly precede the retained ones — the
trimmed entry ties with them. -/
theorem appendLog_tie_counterexample :
    droppedLog (List.replicate 1000 c9e ++ [c9e]) = [c9e] ∧
    c9e ∈ (match appendLog "abcdefghij" c9e (fun _ => List.replicate 1000 c9e) with
           | .ok logs' => logs' "abcdefghij"
           | .error _ => []) ∧
    ¬ logKeyLt c9e c9e := by
  have hrep : List.replicate 1000 c9e ++ [c9e] = List.replicate 1001 c9e :=
    (List.replicate_succ' 1000 c9e).symm
  have hsorted : List.insertionSort logKeyGe (List.replicate 1001 c9e)
      = List.replicate 1001 c9e :=
    List.Sorted.insertionSort_eq
      (List.pairwise_replicate.mpr (Or.inr (by unfold logKeyGe; omega)))
  refine ⟨?_, ?_, by decide⟩
  · unfold droppedLog
    rw [hrep, hsorted, List.drop_replicate]
    rfl
  · have happ : appendLog "abcdefghij" c9e (fun _ => List.replicate 1000 c9e)
        = .ok (fun r => if r = "abcdefghij" then
            trimLog (List.replicate 1000 c9e ++ [c9e])
          else List.replicate 1000 c9e) := by
      unfold appendLog
      rw [if_neg (by decide), if_neg (by decide)]
    rw [happ]
    show c9e ∈ (if "abcdefghij" = "abcdefghij" then
        trimLog (List.replicate 1000 c9e ++ [c9e])
      else List.replicate 1000 c9e)
    rw [if_pos rfl]
    unfold trimLog
    rw [hrep, hsorted, List.take_replicate]
    exact List.mem_replicate.mpr ⟨by omega, rfl⟩

/-- Witness for `appendLog_trims_to_recent`. -/
theorem appendLog_trims_to_recent_witness :
    appendLog "abcdefghij" c9e (fun _ => [])
        = .ok (fun r => if r = "abcdefghij" then trimLog ([] ++ [c9e]) else []) ∧
    (((fun r => if r = "abcdefghij" then trimLog ([] ++ [c9e]) else ([] : List LogEntry))
        "abcdefghij").length) ≤ 1000 :=
  have happ : appendLog "abcdefghij" c9e (fun _ => ([] : List LogEntry))
      = .ok (fun r => if r = "abcdefghij" then trimLog ([] ++ [c9e]) else []) := by
    unfold appendLog
    rw [if_neg (by decide), if_neg (by decide)]
  ⟨happ, (appendLog_trims_to_recent "abcdefghij" c9e _ _ happ).1⟩

end BraveSync
